import Mathlib

/-!
# Verification of the Auto-Backpork container codec and pipeline

This development embeds, in Lean 4, the parts of the Auto-Backpork
repository needed to settle the specification's testable properties:

* the core container codec (Image Reader, Metadata Patcher, Container
  Encoder, Container Decoder, SDK Version Pair table, program-type
  numeric-name table).  The repository ships only the orchestration layer
  (`Backport.py`); the codec modules it imports
  (`ps5_sdk_version_patcher.py`, `make_fself.py`, `decrypt_fself.py`) are
  not present, so those components are modelled from the specification's
  own algorithm descriptions (sections 3, 4 and 6), with the numeric
  constants that `Backport.py` itself documents (pair 4 of the SDK table,
  and the program-type codes fake=1, npdrm_exec=4, npdrm_dynlib=5,
  system_exec=8, system_dynlib=9).
* the byte-level libc patch toggle (`apply_libc_patch` /
  `revert_libc_patch` in `Backport.py`), and
* the per-file skip logic of the downgrade-and-sign batch loops in
  `Backport.py`.

Buffers are lists of natural numbers standing for bytes; fixed-width
fields are written little-endian and read back modulo `2^(8*w)`.
-/

namespace Backpork

/-! ## Byte-buffer primitives -/

/-- `w` zero bytes. -/
def pad (w : Nat) : List Nat := List.replicate w 0

/-- Little-endian serialization of `x` into exactly `w` bytes
(the value is reduced modulo `256 ^ w`, as a fixed-width store does). -/
def writeLE : Nat → Nat → List Nat
  | 0, _ => []
  | w + 1, x => (x % 256) :: writeLE w (x / 256)

/-- Value of a little-endian byte list. -/
def leVal : List Nat → Nat
  | [] => 0
  | b :: t => b + 256 * leVal t

/-- Contiguous sub-buffer of `w` bytes starting at `i` (shorter if the
buffer ends first). -/
def slice (bs : List Nat) (i w : Nat) : List Nat := (bs.drop i).take w

/-- Bounds-checked little-endian read of `w` bytes at offset `i`:
`none` when the read would run past the end of the buffer. -/
def readLE (w : Nat) (bs : List Nat) (i : Nat) : Option Nat :=
  if i + w ≤ bs.length then some (leVal (slice bs i w)) else none

/-- Overwrite the bytes at `[p, p + xs.length)` with `xs`, in place:
the buffer's length never changes (writes falling past the end are
truncated, never resize the buffer). -/
def writeAt : List Nat → Nat → List Nat → List Nat
  | [], _, _ => []
  | b :: t, 0, [] => b :: t
  | _ :: t, 0, x :: xs => x :: writeAt t 0 xs
  | b :: t, p + 1, xs => b :: writeAt t p xs

/-- Round `x` up to the next multiple of `a`. -/
def alignUp (x a : Nat) : Nat :=
  if x % a = 0 then x else x + (a - x % a)

@[simp] theorem writeLE_length (w x : Nat) : (writeLE w x).length = w := by
  induction w generalizing x with
  | zero => rfl
  | succ w ih => simp [writeLE, ih]

@[simp] theorem pad_length (w : Nat) : (pad w).length = w := by
  simp [pad]

theorem leVal_writeLE (w x : Nat) : leVal (writeLE w x) = x % 256 ^ w := by
  induction w generalizing x with
  | zero => simp [writeLE, leVal, Nat.mod_one]
  | succ w ih =>
    simp only [writeLE, leVal, ih]
    rw [pow_succ', Nat.mod_mul]

@[simp] theorem writeAt_length (buf : List Nat) (p : Nat) (xs : List Nat) :
    (writeAt buf p xs).length = buf.length := by
  induction buf generalizing p xs with
  | nil => rfl
  | cons b t ih =>
    match p, xs with
    | 0, [] => rfl
    | 0, x :: xs => simp [writeAt, ih]
    | p + 1, xs => simp [writeAt, ih]

/-- Pointwise description of `writeAt`. -/
theorem writeAt_getElem? (buf : List Nat) (p : Nat) (xs : List Nat) (i : Nat) :
    (writeAt buf p xs)[i]? =
      if p ≤ i ∧ i - p < xs.length ∧ i < buf.length then xs[i - p]? else buf[i]? := by
  induction buf generalizing p xs i with
  | nil => simp [writeAt]
  | cons b t ih =>
    match p, xs, i with
    | 0, [], i => simp [writeAt]
    | 0, x :: xs, 0 => simp [writeAt]
    | 0, x :: xs, i + 1 =>
      have := ih 0 xs i
      simp only [writeAt, List.getElem?_cons_succ, List.length_cons, this]
      by_cases h1 : i < xs.length <;> by_cases h2 : i < t.length <;>
        simp [h1, h2]
    | p + 1, xs, 0 => simp [writeAt]
    | p + 1, xs, i + 1 =>
      have := ih p xs i
      simp only [writeAt, List.getElem?_cons_succ, List.length_cons, this]
      by_cases h1 : p ≤ i <;> by_cases h2 : i - p < xs.length <;>
        by_cases h3 : i < t.length <;>
        simp [h1, h2, h3, Nat.succ_sub_succ]

theorem writeAt_getElem?_lo (buf : List Nat) (p : Nat) (xs : List Nat) (i : Nat)
    (h : i < p) : (writeAt buf p xs)[i]? = buf[i]? := by
  rw [writeAt_getElem?]
  simp [Nat.not_le.mpr h]

theorem writeAt_getElem?_hi (buf : List Nat) (p : Nat) (xs : List Nat) (i : Nat)
    (h : p + xs.length ≤ i) : (writeAt buf p xs)[i]? = buf[i]? := by
  rw [writeAt_getElem?]
  have : ¬ i - p < xs.length := by omega
  simp [this]

theorem writeAt_getElem?_mid (buf : List Nat) (p : Nat) (xs : List Nat) (i : Nat)
    (h1 : p ≤ i) (h2 : i - p < xs.length) (h3 : i < buf.length) :
    (writeAt buf p xs)[i]? = xs[i - p]? := by
  rw [writeAt_getElem?]
  simp [h1, h2, h3]

/-- Writing the same bytes at the same position twice is the same as once. -/
theorem writeAt_writeAt_self (buf : List Nat) (p : Nat) (xs : List Nat) :
    writeAt (writeAt buf p xs) p xs = writeAt buf p xs := by
  apply List.ext_getElem?
  intro i
  simp only [writeAt_getElem?, writeAt_length]
  split_ifs <;> rfl

/-- Disjoint writes commute. -/
theorem writeAt_comm (buf : List Nat) (p q : Nat) (xs ys : List Nat)
    (h : p + xs.length ≤ q ∨ q + ys.length ≤ p) :
    writeAt (writeAt buf p xs) q ys = writeAt (writeAt buf q ys) p xs := by
  apply List.ext_getElem?
  intro i
  simp only [writeAt_getElem?, writeAt_length]
  split_ifs <;> first
    | rfl
    | (exfalso; omega)

@[simp] theorem slice_getElem? (bs : List Nat) (i w j : Nat) :
    (slice bs i w)[j]? = if j < w then bs[i + j]? else none := by
  simp [slice, List.getElem?_take, List.getElem?_drop]

theorem slice_append_exact (a b : List Nat) (w : Nat) :
    slice (a ++ b) a.length w = b.take w := by
  apply List.ext_getElem?
  intro j
  simp only [slice_getElem?, List.getElem?_append, List.getElem?_take]
  split_ifs <;> first
    | rfl
    | (exfalso; omega)
    | simp_all

/-- Reading a field back from a serialized buffer recovers the stored
value (reduced to the field width). -/
theorem readLE_at_append (a rest : List Nat) (w x : Nat) :
    readLE w (a ++ (writeLE w x ++ rest)) a.length = some (x % 256 ^ w) := by
  have hs : slice (a ++ (writeLE w x ++ rest)) a.length w = writeLE w x := by
    rw [slice_append_exact]
    rw [List.take_left' (writeLE_length w x)]
  have hlen : a.length + w ≤ (a ++ (writeLE w x ++ rest)).length := by
    simp [List.length_append]
  rw [readLE, if_pos hlen, hs, leVal_writeLE]

theorem readLE_none (w : Nat) (bs : List Nat) (i : Nat) (h : bs.length < i + w) :
    readLE w bs i = none := by
  rw [readLE, if_neg]
  omega

/-- Reads entirely inside the kept prefix are unaffected by truncation. -/
theorem readLE_take (w : Nat) (bs : List Nat) (L i : Nat) (h : i + w ≤ L)
    (hL : L ≤ bs.length) : readLE w (bs.take L) i = readLE w bs i := by
  have hsl : slice (bs.take L) i w = slice bs i w := by
    apply List.ext_getElem?
    intro j
    simp only [slice_getElem?, List.getElem?_take]
    split_ifs <;> first
      | rfl
      | (exfalso; omega)
  rw [readLE, readLE, hsl]
  have : i + w ≤ (bs.take L).length := by simp; omega
  rw [if_pos this, if_pos (by omega)]

theorem le_alignUp (x a : Nat) : x ≤ alignUp x a := by
  rw [alignUp]; split <;> omega

theorem alignUp_mod (x a : Nat) (ha : 0 < a) : alignUp x a % a = 0 := by
  rw [alignUp]
  by_cases h : x % a = 0
  · rw [if_pos h]; exact h
  · rw [if_neg h]
    have hr : x % a < a := Nat.mod_lt _ ha
    have hd := Nat.div_add_mod x a
    have he : x + (a - x % a) = a * (x / a) + a := by omega
    rw [he]
    have : a * (x / a) + a = a * (x / a + 1) := by ring
    rw [this, Nat.mul_mod_right]

theorem alignUp_of_mod_eq (x a : Nat) (h : x % a = 0) : alignUp x a = x := by
  rw [alignUp, if_pos h]

/-! ## Data model

Modelled from the spec: the codec modules (`ps5_sdk_version_patcher.py`,
`make_fself.py`, `decrypt_fself.py`) are imported by `Backport.py` but
absent from the repository, so the Image / Container data model follows
the specification's section 3. -/

/-- Segment type tag (spec section 3). -/
inductive SegType where
  | loadable
  | dynamic
  | note
  | procParam
  | other
deriving DecidableEq, Repr

/-- A segment descriptor (spec section 3). -/
structure Segment where
  segType : SegType
  fileOffset : Nat
  fileSize : Nat
  memAddr : Nat
  memSize : Nat
  alignVal : Nat
  permR : Bool
  permW : Bool
  permX : Bool
deriving DecidableEq, Repr

/-- A plain executable image: segment descriptors plus a raw byte buffer
(spec section 3). -/
structure Image where
  segments : List Segment
  data : List Nat
deriving DecidableEq, Repr

/-- `a` lies before `b` and their file ranges do not overlap. -/
def Segment.before (a b : Segment) : Prop :=
  a.fileOffset ≤ b.fileOffset ∧
    (a.fileOffset + a.fileSize ≤ b.fileOffset ∨ a.fileSize = 0 ∨ b.fileSize = 0)

/-- The Image invariants of spec section 3: segment file ranges never
overlap, segments are stored in non-decreasing file-offset order, and the
buffer covers every segment.  The width bounds reflect the fixed-width
container fields (64-bit offsets/sizes, 32-bit entry count). -/
def Image.WF (img : Image) : Prop :=
  img.segments.Pairwise Segment.before ∧
    (∀ s ∈ img.segments, s.fileOffset + s.fileSize ≤ img.data.length) ∧
    img.data.length < 2 ^ 32 ∧
    img.segments.length < 2 ^ 32

/-- Identity descriptor: the signing policy (spec section 3). -/
structure Identity where
  paid : Nat
  ptype : Nat
  appVersion : Nat
  fwVersion : Nat
  authInfo : Option (List Nat)
deriving DecidableEq, Repr

inductive EncodeErr where
  | emptyImage
  | unrecognizedProgramType
deriving DecidableEq, Repr

inductive DecodeErr where
  | formatError
  | corruptTableError
  | unsupportedSegmentError
deriving DecidableEq, Repr

inductive PatchError where
  | unknownPairError
  | noParameterBlockError
deriving DecidableEq, Repr

/-! ## Format constants

Modelled from the spec: fixed format constants (spec sections 4.3 and 6).
The container magic is the SELF magic that `Backport.py`'s
`_is_self_file` checks (`4F 15 3D 1D`); the remaining sizes are the fixed
header/metadata layout of the model.  The recognized program-type code
set is the five named types whose numeric codes `Backport.py` documents in
`get_ptype_choice` (fake=1, npdrm_exec=4, npdrm_dynlib=5, system_exec=8,
system_dynlib=9). -/

def CF_MAGIC : List Nat := [0x4F, 0x15, 0x3D, 0x1D]
def FORMAT_VERSION : Nat := 1
def KEY_TYPE : Nat := 0x101
def HEADER_SIZE : Nat := 32
def META_SIZE : Nat := 64
def AUTH_BLOB_SIZE : Nat := 44
def ENTRY_SIZE : Nat := 32
def FIRST_SEG_ALIGN : Nat := 64
def SEG_FLAG_ENCRYPTED : Nat := 1
def SEG_FLAG_COMPRESSED : Nat := 2
def SEG_FLAGS_BLOCKED : Nat := 4
def recognizedPtypes : List Nat := [1, 4, 5, 8, 9]

/-- Offset of the segment-info table inside the container. -/
def segTableOff : Nat := HEADER_SIZE + META_SIZE

/-! ## SDK Version Pair table

Modelled from the spec: dense keys starting at 1, each mapping to a
(platform-version, compatibility-version) pair (spec sections 3 and 4.5).
Pair 4 = (0x04000031, 0x09040001) is attested by `Backport.py` line 1785;
the other entries are representative values (the real table lives in the
missing `ps5_sdk_version_patcher.py`), and no theorem below depends on
their concrete values. -/

def sdkPairs : List (Nat × Nat × Nat) :=
  [(1, 0x01000051, 0x05050001),
   (2, 0x02000046, 0x07000001),
   (3, 0x03000042, 0x08000001),
   (4, 0x04000031, 0x09040001),
   (5, 0x05000041, 0x09600001),
   (6, 0x06000040, 0x10000001),
   (7, 0x07000038, 0x10500001)]

/-! ## Image Reader lookup and Metadata Patcher

Modelled from the spec: the process-parameter block is a fixed-layout
record identified by a magic prefix (spec section 3); the lookup scans
loadable segments in order for the first occurrence of that magic (spec
section 4.1); the patcher overwrites the platform-version and
compatibility-version fields in place, same width, no buffer resize
(spec section 4.2). -/

def PARAM_MAGIC : List Nat := [0x50, 0x41, 0x52, 0x41]
/-- Byte offset of the platform SDK version field inside the block. -/
def PB_SDK_OFF : Nat := 8
/-- Byte offset of the compatibility version field inside the block. -/
def PB_COMPAT_OFF : Nat := 12

/-- Scan `count` candidate positions starting at `q` for the block magic. -/
def scanFrom (bs : List Nat) : Nat → Nat → Option Nat
  | _, 0 => none
  | q, count + 1 =>
    if slice bs q 4 = PARAM_MAGIC then some q else scanFrom bs (q + 1) count

/-- Search one segment's file range for the block magic. -/
def findInSeg (bs : List Nat) (off sz : Nat) : Option Nat :=
  if 4 ≤ sz then scanFrom bs off (sz - 3) else none

def findParamBlockIn (bs : List Nat) : List Segment → Option Nat
  | [] => none
  | s :: rest =>
    if s.segType = SegType.loadable then
      match findInSeg bs s.fileOffset s.fileSize with
      | some p => some p
      | none => findParamBlockIn bs rest
    else findParamBlockIn bs rest

/-- Image Reader lookup: offset of the process-parameter block, or `none`
when the image has no such block (spec section 4.1). -/
def findParamBlock (img : Image) : Option Nat :=
  findParamBlockIn img.data img.segments

/-- Metadata Patcher (spec sections 4.2 and 6): mutates the image in
place, so the result carries both the outcome and the (possibly
unchanged) image. -/
def patch_metadata (img : Image) (pairKey : Nat) : Option PatchError × Image :=
  match List.lookup pairKey sdkPairs with
  | none => (some PatchError.unknownPairError, img)
  | some (ps5, ps4) =>
    match findParamBlock img with
    | none => (some PatchError.noParameterBlockError, img)
    | some p =>
      (none,
        { img with
          data := writeAt (writeAt img.data (p + PB_SDK_OFF) (writeLE 4 ps5))
              (p + PB_COMPAT_OFF) (writeLE 4 ps4) })

/-! ## Container Encoder

Modelled from the spec: section 4.3's six-step algorithm. -/

/-- One segment-info table entry. -/
structure SegEntry where
  offset : Nat
  compSize : Nat
  plainSize : Nat
  flags : Nat
deriving DecidableEq, Repr

/-- Base offset of the wrapped image bytes (spec section 4.3 step 2). -/
def baseOffsetFor (n : Nat) : Nat :=
  alignUp (segTableOff + n * ENTRY_SIZE) FIRST_SEG_ALIGN

/-- Segment-info entries (spec section 4.3 step 3): container-relative
offset, plain size = compressed size, fixed unencrypted/uncompressed/
blocked flags. -/
def segEntries (img : Image) : List SegEntry :=
  img.segments.map fun s =>
    ⟨baseOffsetFor img.segments.length + s.fileOffset, s.fileSize, s.fileSize,
      SEG_FLAGS_BLOCKED⟩

/-- Serialized fixed-size container header. -/
def encHeader (total n : Nat) : List Nat :=
  CF_MAGIC ++ writeLE 4 FORMAT_VERSION ++ writeLE 4 KEY_TYPE ++
    writeLE 4 HEADER_SIZE ++ writeLE 4 META_SIZE ++ writeLE 8 total ++ writeLE 4 n

/-- Serialized authentication-info record (spec section 4.3 step 4):
identity fields verbatim, blob zero-padded to its fixed size. -/
def encAuthInfo (d : Identity) : List Nat :=
  writeLE 8 d.paid ++ writeLE 4 d.ptype ++ writeLE 4 d.appVersion ++
    writeLE 4 d.fwVersion ++
    (match d.authInfo with
     | none => pad AUTH_BLOB_SIZE
     | some blob => (blob ++ pad AUTH_BLOB_SIZE).take AUTH_BLOB_SIZE)

/-- Serialized segment-info entry. -/
def encEntry (e : SegEntry) : List Nat :=
  writeLE 8 e.offset ++ writeLE 8 e.compSize ++ writeLE 8 e.plainSize ++
    writeLE 8 e.flags

/-- Container Encoder (spec section 4.3): header, metadata, segment-info
table and the image bytes, concatenated; fails only on an empty image or
an unrecognized program type. -/
def encode_container (img : Image) (d : Identity) : Except EncodeErr (List Nat) :=
  if img.segments.isEmpty then .error .emptyImage
  else if d.ptype ∈ recognizedPtypes then
    let n := img.segments.length
    let base := baseOffsetFor n
    let total := base + img.data.length
    .ok (encHeader total n ++ encAuthInfo d ++
      ((segEntries img).map encEntry).flatten ++
      pad (base - (segTableOff + n * ENTRY_SIZE)) ++ img.data)
  else .error .unrecognizedProgramType

/-! ## Container Decoder

Modelled from the spec: section 4.4. -/

/-- Read and validate `count` segment-info entries starting at `pos`:
a read past the end of the buffer or an entry whose range exceeds the
buffer is a corrupt table; encrypted/compressed flags are unsupported. -/
def readEntries (bs : List Nat) : Nat → Nat → Except DecodeErr (List SegEntry)
  | _, 0 => .ok []
  | pos, count + 1 =>
    match readLE 8 bs pos, readLE 8 bs (pos + 8), readLE 8 bs (pos + 16),
        readLE 8 bs (pos + 24) with
    | some off, some cs, some ps, some fl =>
      if off + ps ≤ bs.length then
        if fl % 2 = 1 ∨ fl / 2 % 2 = 1 then .error .unsupportedSegmentError
        else
          match readEntries bs (pos + ENTRY_SIZE) count with
          | .error e => .error e
          | .ok rest => .ok (⟨off, cs, ps, fl⟩ :: rest)
      else .error .corruptTableError
    | _, _, _, _ => .error .corruptTableError

/-- Length of the freshly built image buffer: the furthest
image-relative end over all entries. -/
def coverageEnd (base : Nat) (es : List SegEntry) : Nat :=
  es.foldr (fun e m => max (e.offset - base + e.plainSize) m) 0

/-- Copy each entry's plain bytes into the fresh image buffer,
preserving entry order. -/
def copySegments (bs : List Nat) (base : Nat) (es : List SegEntry)
    (buf : List Nat) : List Nat :=
  es.foldl (fun acc e => writeAt acc (e.offset - base) (slice bs e.offset e.plainSize)) buf

/-- Container Decoder (spec section 4.4): validate the magic and that
`header_size + metadata_size` fits, read the segment-info table, re-derive
the base offset from the header's own size fields, and rebuild a
standalone image. -/
def decode_container (bs : List Nat) : Except DecodeErr Image :=
  if bs.take 4 = CF_MAGIC then
    match readLE 4 bs 12, readLE 4 bs 16, readLE 4 bs 28 with
    | some hs, some ms, some n =>
      if hs + ms ≤ bs.length then
        match readEntries bs (hs + ms) n with
        | .error e => .error e
        | .ok es =>
          let base := alignUp (hs + ms + n * ENTRY_SIZE) FIRST_SEG_ALIGN
          let segs := es.map fun e =>
            Segment.mk SegType.loadable (e.offset - base) e.plainSize 0 0 0
              true false false
          .ok ⟨segs, copySegments bs base es (pad (coverageEnd base es))⟩
      else .error .formatError
    | _, _, _ => .error .formatError
  else .error .formatError

/-! ## Program-type parsing

Modelled from the spec: section 6's `parse_program_type`, with the
numeric codes documented in `Backport.py`'s `get_ptype_choice`
(lines 1849-1858) and the hex/decimal fallback of its custom-ptype
branch (lines 1885-1897). -/

def hexDigit (c : Char) : Option Nat :=
  if '0' ≤ c ∧ c ≤ '9' then some (c.toNat - 48)
  else if 'a' ≤ c ∧ c ≤ 'f' then some (c.toNat - 87)
  else if 'A' ≤ c ∧ c ≤ 'F' then some (c.toNat - 55)
  else none

def decDigit (c : Char) : Option Nat :=
  if '0' ≤ c ∧ c ≤ '9' then some (c.toNat - 48) else none

def digitsVal (base : Nat) (dig : Char → Option Nat) : List Char → Nat → Option Nat
  | [], acc => some acc
  | c :: t, acc =>
    match dig c with
    | none => none
    | some v => digitsVal base dig t (acc * base + v)

/-- Bare-integer fallback: hex with a `0x` prefix, otherwise decimal. -/
def parseNum (s : List Char) : Option Nat :=
  match s with
  | [] => none
  | '0' :: 'x' :: rest =>
    if rest.isEmpty then none else digitsVal 16 hexDigit rest 0
  | _ => digitsVal 10 decDigit s 0

/-- The five symbolic program-type names and their fixed numeric codes. -/
def ptypeNames : List (List Char × Nat) :=
  [("fake".toList, 1), ("npdrm_exec".toList, 4), ("npdrm_dynlib".toList, 5),
   ("system_exec".toList, 8), ("system_dynlib".toList, 9)]

/-- `parse_program_type` (spec section 6): a symbolic name's fixed code,
else the bare-integer parse, else failure. -/
def parse_program_type (s : List Char) : Option Nat :=
  match List.lookup s ptypeNames with
  | some v => some v
  | none => parseNum s

/-! ## The libc patch toggle (`Backport.py` lines 48-49, 354-472, 474-699)

The per-file byte transformation of `apply_libc_patch` and
`revert_libc_patch`: Python's `bytes.replace` (replace every
non-overlapping occurrence, scanning left to right), guarded by the
already-patched check and the post-write verification of the source. -/

/-- `PS5ELFProcessor.LIBC_PATCH_PATTERN = b'4h6F1LLbTiw#A#B'`. -/
def LIBC_PATCH_PATTERN : List Nat :=
  [0x34, 0x68, 0x36, 0x46, 0x31, 0x4C, 0x4C, 0x62, 0x54, 0x69, 0x77, 0x23,
   0x41, 0x23, 0x42]

/-- `PS5ELFProcessor.LIBC_PATCH_REPLACEMENT = b'IWIBBdTHit4#A#B'`. -/
def LIBC_PATCH_REPLACEMENT : List Nat :=
  [0x49, 0x57, 0x49, 0x42, 0x42, 0x64, 0x54, 0x48, 0x69, 0x74, 0x34, 0x23,
   0x41, 0x23, 0x42]

/-- Python's `pat in bs` on bytes: `pat` occurs contiguously in `bs`. -/
def occursIn (pat : List Nat) : List Nat → Bool
  | [] => pat.isEmpty
  | c :: t => pat.isPrefixOf (c :: t) || occursIn pat t

/-- Python's `bs.replace(pat, rep)` for a nonempty pattern: scan left to
right, replacing each non-overlapping occurrence. -/
def replaceAll (pat rep : List Nat) : List Nat → List Nat
  | [] => []
  | c :: t =>
    if pat.isPrefixOf (c :: t) && !pat.isEmpty then
      rep ++ replaceAll pat rep ((c :: t).drop pat.length)
    else
      c :: replaceAll pat rep t
  termination_by s => s.length
  decreasing_by
  · rename_i h
    simp only [Bool.and_eq_true, Bool.not_eq_eq_eq_not, Bool.not_true] at h
    simp only [List.length_drop, List.length_cons]
    have hne : pat ≠ [] := by
      intro hx
      rw [hx] at h
      simp [List.isEmpty] at h
    have : 0 < pat.length := List.length_pos.mpr hne
    omega
  · simp only [List.length_cons]
    omega

/-- One file's byte transformation in `apply_libc_patch`
(`Backport.py` lines 354-438): skip when the pattern is absent or the
replacement already present; otherwise replace and keep the result only
if verification succeeds (on failure the backup, when one was made,
restores the original bytes). -/
def applyLibcPatchFile (createBackup : Bool) (content : List Nat) : List Nat :=
  if occursIn LIBC_PATCH_PATTERN content then
    if occursIn LIBC_PATCH_REPLACEMENT content then content
    else
      let patched := replaceAll LIBC_PATCH_PATTERN LIBC_PATCH_REPLACEMENT content
      if !occursIn LIBC_PATCH_PATTERN patched &&
          occursIn LIBC_PATCH_REPLACEMENT patched then patched
      else if createBackup then content else patched
  else content

/-- One file's byte transformation in `revert_libc_patch`
(`Backport.py` lines 474-669): the same logic with the two patterns
exchanged. -/
def revertLibcPatchFile (createBackup : Bool) (content : List Nat) : List Nat :=
  if occursIn LIBC_PATCH_REPLACEMENT content then
    if occursIn LIBC_PATCH_PATTERN content then content
    else
      let reverted := replaceAll LIBC_PATCH_REPLACEMENT LIBC_PATCH_PATTERN content
      if occursIn LIBC_PATCH_PATTERN reverted &&
          !occursIn LIBC_PATCH_REPLACEMENT reverted then reverted
      else if createBackup then content else reverted
  else content

/-! ## The signing loop of the batch pipelines

`Backport.py` lines 1078-1137 (`downgrade_and_sign`) and 1494-1553
(`decrypt_and_sign_pipeline`): iterate over the ELF files found earlier;
a file whose downgrade failed gets a failed signing record with a skip
message and the loop continues; a file whose output already exists is
skipped silently unless overwriting; otherwise the converter runs and
its outcome is recorded. -/

/-- One file's entry in `results['signing']['files']`. -/
structure SignRec where
  success : Bool
  outputOf : Option Nat
  message : String
deriving DecidableEq, Repr

def skipMessage : String := "Skipped due to downgrade failure"

/-- The signing loop, files identified by numbers; `downOk` is the
downgrade outcome recorded by the preceding loop, `existsOut` whether the
output file already exists, `signOk` the converter outcome. -/
def processSigning (downOk existsOut signOk : Nat → Bool) (overwrite : Bool) :
    List Nat → List (Nat × SignRec)
  | [] => []
  | f :: rest =>
    if downOk f = false then
      (f, ⟨false, none, skipMessage⟩) ::
        processSigning downOk existsOut signOk overwrite rest
    else if existsOut f = true ∧ overwrite = false then
      processSigning downOk existsOut signOk overwrite rest
    else
      (f, ⟨signOk f, some f, if signOk f then "Success" else "Failed"⟩) ::
        processSigning downOk existsOut signOk overwrite rest

/-! ## Concrete instances used by witnesses and counterexamples -/

/-- The minimal image of the spec's concrete scenario (section 8): one
loadable segment of `0x100` bytes at image-offset 0, with a
process-parameter block at offset `0x40` holding platform-version
`0x03000000`. -/
def segC3 : Segment := ⟨SegType.loadable, 0, 0x100, 0, 0, 0x1000, true, false, true⟩

def bufC3 : List Nat :=
  pad 0x40 ++ PARAM_MAGIC ++ writeLE 4 0x10 ++ writeLE 4 0x03000000 ++
    writeLE 4 0 ++ pad (0x100 - 0x50)

def imgC3 : Image := ⟨[segC3], bufC3⟩

/-- The same image after pair 4 is patched in: platform-version
`0x04000031`, compatibility-version `0x09040001`, all other bytes
untouched. -/
def bufC3p : List Nat :=
  pad 0x40 ++ PARAM_MAGIC ++ writeLE 4 0x10 ++ writeLE 4 0x04000031 ++
    writeLE 4 0x09040001 ++ pad (0x100 - 0x50)

/-- A tiny but well-formed image: one loadable one-byte segment at
offset 0, with one trailing buffer byte no segment covers. -/
def imgT : Image := ⟨[⟨SegType.loadable, 0, 1, 0, 0, 0, true, false, false⟩], [7, 9]⟩

/-- A fake-signing identity with the default fake PAID and program type
`fake` (= 1). -/
def idFake : Identity := ⟨0x3100000000000002, 1, 0, 0, none⟩

/-- A well-formed image whose first segment sits at image-offset 1 (not
aligned) and whose two segments are empty (zero file size): legal per the
spec's Image invariants, encodable, but breaking section 8's alignment
phrasing. -/
def imgC8 : Image :=
  ⟨[⟨SegType.loadable, 1, 0, 0, 0, 0, true, false, false⟩,
    ⟨SegType.loadable, 1, 0, 0, 0, 0, true, false, false⟩], [0]⟩

/-- The serialized container of the tiny image `imgT` (130 bytes:
base offset 128 plus the 2-byte image buffer). -/
def bsT : List Nat := (encode_container imgT idFake).toOption.getD []

/-- The furthest container-relative byte covered by any segment-info
entry of the encoded container. -/
def entriesEnd (img : Image) : Nat :=
  (segEntries img).foldr (fun e m => max (e.offset + e.plainSize) m) 0

instance Segment.decBefore : DecidableRel Segment.before := fun a b => by
  unfold Segment.before
  infer_instance

instance Image.decWF (img : Image) : Decidable img.WF := by
  unfold Image.WF
  infer_instance

/-! ## Theorems -/

theorem lookup_eq_none_of_ne {β : Type} (l : List (List Char × β)) (s : List Char)
    (h : ∀ p ∈ l, s ≠ p.1) : List.lookup s l = none := by
  induction l with
  | nil => rfl
  | cons p t ih =>
    have h1 : s ≠ p.1 := h p (List.mem_cons_self p t)
    have hb : (s == p.1) = false := beq_eq_false_iff_ne.mpr h1
    simp only [List.lookup, hb]
    exact ih fun q hq => h q (List.mem_cons_of_mem _ hq)

/-- C4: `patch_metadata` fails with `UnknownPairError` for every pair key
absent from the SDK Version Pair table, leaving the image unchanged. -/
theorem C4_unknown_pair_rejected (img : Image) (k : Nat)
    (h : List.lookup k sdkPairs = none) :
    patch_metadata img k = (some PatchError.unknownPairError, img) := by
  simp [patch_metadata, h]

/-- Witness for C4 at the keys the claim names: `k = 0` and a key above
the table's maximum (`k = 8`). -/
theorem C4_unknown_pair_rejected_witness :
    List.lookup 0 sdkPairs = none ∧
      patch_metadata ⟨[], []⟩ 0 = (some PatchError.unknownPairError, ⟨[], []⟩) ∧
      List.lookup 8 sdkPairs = none ∧
      patch_metadata ⟨[], []⟩ 8 = (some PatchError.unknownPairError, ⟨[], []⟩) :=
  ⟨by decide, C4_unknown_pair_rejected ⟨[], []⟩ 0 (by decide),
   by decide, C4_unknown_pair_rejected ⟨[], []⟩ 8 (by decide)⟩

/-- C5: patching an image whose segments contain no process-parameter
block fails with `NoParameterBlockError` and returns the image with its
byte buffer exactly unchanged. -/
theorem C5_no_param_block_rejected (img : Image) (k : Nat) (pr : Nat × Nat)
    (hk : List.lookup k sdkPairs = some pr)
    (hb : findParamBlock img = none) :
    patch_metadata img k = (some PatchError.noParameterBlockError, img) := by
  simp [patch_metadata, hk, hb]

/-- Witness for C5: an image with no segments at all has no
process-parameter block. -/
theorem C5_no_param_block_rejected_witness :
    patch_metadata ⟨[], [1, 2, 3]⟩ 4 =
      (some PatchError.noParameterBlockError, ⟨[], [1, 2, 3]⟩) :=
  C5_no_param_block_rejected ⟨[], [1, 2, 3]⟩ 4 (0x04000031, 0x09040001)
    (by decide) (by decide)

/-- C6: `parse_program_type` maps each symbolic name to its fixed code
(fake=1, npdrm_exec=4, npdrm_dynlib=5, system_exec=8, system_dynlib=9),
and every other string goes through the bare-integer parse (hex with a
`0x` prefix, or decimal), which yields a number or fails. -/
theorem C6_parse_program_type :
    parse_program_type "fake".toList = some 1 ∧
    parse_program_type "npdrm_exec".toList = some 4 ∧
    parse_program_type "npdrm_dynlib".toList = some 5 ∧
    parse_program_type "system_exec".toList = some 8 ∧
    parse_program_type "system_dynlib".toList = some 9 ∧
    ∀ s : List Char, (∀ p ∈ ptypeNames, s ≠ p.1) →
      parse_program_type s = parseNum s := by
  refine ⟨by decide, by decide, by decide, by decide, by decide, ?_⟩
  intro s hs
  rw [parse_program_type, lookup_eq_none_of_ne ptypeNames s hs]

/-- Witness for C6's fallback clause: `"26"` is none of the symbolic
names, so it parses as a bare decimal integer. -/
theorem C6_parse_program_type_witness :
    parse_program_type ['2', '6'] = parseNum ['2', '6'] :=
  C6_parse_program_type.2.2.2.2.2 ['2', '6'] (by decide)

set_option maxRecDepth 100000 in
/-- C3: the spec's concrete scenario.  The SDK table maps pair key 4 to
(0x04000031, 0x09040001); patching the minimal one-segment image with
platform-version 0x03000000 succeeds and yields exactly the buffer whose
platform-version field reads 0x04000031 and compatibility-version field
reads 0x09040001, with every byte outside those two fields unchanged. -/
theorem C3_concrete_patch :
    List.lookup 4 sdkPairs = some (0x04000031, 0x09040001) ∧
    patch_metadata imgC3 4 = (none, ⟨[segC3], bufC3p⟩) ∧
    readLE 4 (patch_metadata imgC3 4).2.data (0x40 + PB_SDK_OFF) =
      some 0x04000031 ∧
    readLE 4 (patch_metadata imgC3 4).2.data (0x40 + PB_COMPAT_OFF) =
      some 0x09040001 := by
  refine ⟨by decide, by decide, by decide, by decide⟩

/-- C9: in the signing loop of the batch pipelines, every file whose
downgrade failed gets a failed signing record with the skip message, and
every file whose downgrade succeeded is still processed normally (signed,
or silently skipped only because its output exists and overwriting is
off) — one file's failure never affects the rest of the batch. -/
theorem C9_batch_skip (downOk existsOut signOk : Nat → Bool) (overwrite : Bool)
    (files : List Nat) (f : Nat) (hf : f ∈ files) :
    (downOk f = false →
      List.lookup f (processSigning downOk existsOut signOk overwrite files) =
        some ⟨false, none, skipMessage⟩) ∧
    (downOk f = true → (existsOut f = false ∨ overwrite = true) →
      List.lookup f (processSigning downOk existsOut signOk overwrite files) =
        some ⟨signOk f, some f, if signOk f then "Success" else "Failed"⟩) := by
  induction files with
  | nil => cases hf
  | cons g rest ih =>
    rcases List.mem_cons.mp hf with hgf | hfr
    · subst hgf
      constructor
      · intro hdf
        rw [processSigning, if_pos hdf]
        simp [List.lookup]
      · intro hdt hex
        rw [processSigning, if_neg (by simp [hdt])]
        rw [if_neg (by rcases hex with h | h <;> simp [h])]
        simp [List.lookup]
    · have ihr := ih hfr
      constructor
      · intro hdf
        rw [processSigning]
        by_cases hdg : downOk g = false
        · rw [if_pos hdg]
          by_cases hkey : f = g
          · subst hkey
            simp [List.lookup]
          · have hb : (f == g) = false := beq_eq_false_iff_ne.mpr hkey
            simp only [List.lookup, hb]
            exact ihr.1 hdf
        · rw [if_neg hdg]
          by_cases hskip : existsOut g = true ∧ overwrite = false
          · rw [if_pos hskip]
            exact ihr.1 hdf
          · rw [if_neg hskip]
            by_cases hkey : f = g
            · subst hkey
              simp at hdg
              rw [hdg] at hdf
              cases hdf
            · have hb : (f == g) = false := beq_eq_false_iff_ne.mpr hkey
              simp only [List.lookup, hb]
              exact ihr.1 hdf
      · intro hdt hex
        rw [processSigning]
        by_cases hdg : downOk g = false
        · rw [if_pos hdg]
          by_cases hkey : f = g
          · subst hkey
            rw [hdt] at hdg
            cases hdg
          · have hb : (f == g) = false := beq_eq_false_iff_ne.mpr hkey
            simp only [List.lookup, hb]
            exact ihr.2 hdt hex
        · rw [if_neg hdg]
          by_cases hskip : existsOut g = true ∧ overwrite = false
          · rw [if_pos hskip]
            by_cases hkey : f = g
            · subst hkey
              rcases hex with h | h
              · rw [hskip.1] at h
                cases h
              · rw [hskip.2] at h
                cases h
            · exact ihr.2 hdt hex
          · rw [if_neg hskip]
            by_cases hkey : f = g
            · subst hkey
              simp [List.lookup]
            · have hb : (f == g) = false := beq_eq_false_iff_ne.mpr hkey
              simp only [List.lookup, hb]
              exact ihr.2 hdt hex

/-- Witness for C9: a three-file batch in which the middle file's
downgrade failed — it is recorded as skipped, while both neighbours are
signed. -/
theorem C9_batch_skip_witness :
    (List.lookup 2 (processSigning (fun f => f ≠ 2) (fun _ => false)
        (fun _ => true) false [1, 2, 3]) =
      some ⟨false, none, skipMessage⟩) ∧
    (List.lookup 3 (processSigning (fun f => f ≠ 2) (fun _ => false)
        (fun _ => true) false [1, 2, 3]) =
      some ⟨true, some 3, "Success"⟩) := by
  constructor
  · exact (C9_batch_skip (fun f => f ≠ 2) (fun _ => false) (fun _ => true)
      false [1, 2, 3] 2 (by decide)).1 (by decide)
  · have := (C9_batch_skip (fun f => f ≠ 2) (fun _ => false) (fun _ => true)
      false [1, 2, 3] 3 (by decide)).2 (by decide) (Or.inl (by decide))
    simpa using this

/-- Counterexample to C8 as stated: `imgC8` satisfies every Image
invariant of spec section 3 and encodes successfully, yet its first
segment-info entry's offset (192 + 1 = 193) is not a multiple of the
first-segment alignment constant, and its two entries (two empty
segments at the same image offset) are not strictly ascending. -/
theorem C8_counterexample :
    Image.WF imgC8 ∧
    (encode_container imgC8 idFake).isOk = true ∧
    ¬ ((∀ e0 ∈ (segEntries imgC8).take 1, e0.offset % FIRST_SEG_ALIGN = 0) ∧
       (segEntries imgC8).Pairwise fun a b => a.offset < b.offset) := by
  refine ⟨by decide, by decide, by decide⟩

theorem pairwise_before_shift (l : List Segment) (base : Nat)
    (hp : l.Pairwise Segment.before) (hpos : ∀ s ∈ l, 0 < s.fileSize) :
    l.Pairwise fun a b =>
      base + a.fileOffset < base + b.fileOffset ∧
        base + a.fileOffset + a.fileSize ≤ base + b.fileOffset := by
  induction l with
  | nil => exact List.Pairwise.nil
  | cons s t ih =>
    cases hp with
    | cons hs hp' =>
      refine List.Pairwise.cons ?_
        (ih hp' fun q hq => hpos q (List.mem_cons_of_mem _ hq))
      intro b hb
      have h1 : 0 < s.fileSize := hpos s (List.mem_cons_self _ _)
      have h2 : 0 < b.fileSize := hpos b (List.mem_cons_of_mem _ hb)
      rcases hs b hb with ⟨hle, h3 | h3 | h3⟩ <;> constructor <;> omega

/-- C8 (amended): for a well-formed image all of whose segments have
positive size and whose first segment sits at an aligned image offset
(offset 0 in particular), every encoded container's first segment-info
entry offset is a multiple of the first-segment alignment, and the
entries are strictly offset-ascending with disjoint byte ranges. -/
theorem C8_alignment_invariant (img : Image) (d : Identity) (bs : List Nat)
    (hwf : img.WF)
    (hpos : ∀ s ∈ img.segments, 0 < s.fileSize)
    (hal : ∀ s0 ∈ img.segments.take 1, s0.fileOffset % FIRST_SEG_ALIGN = 0)
    (_henc : encode_container img d = .ok bs) :
    (∀ e0 ∈ (segEntries img).take 1, e0.offset % FIRST_SEG_ALIGN = 0) ∧
    (segEntries img).Pairwise
      (fun a b => a.offset < b.offset ∧ a.offset + a.plainSize ≤ b.offset) := by
  have hbase : baseOffsetFor img.segments.length % FIRST_SEG_ALIGN = 0 :=
    alignUp_mod _ _ (by decide)
  constructor
  · intro e0 he0
    rw [segEntries, ← List.map_take] at he0
    rcases List.mem_map.mp he0 with ⟨s0, hs0, rfl⟩
    have h0 := hal s0 hs0
    show (baseOffsetFor img.segments.length + s0.fileOffset) % FIRST_SEG_ALIGN = 0
    simp only [FIRST_SEG_ALIGN] at h0 hbase ⊢
    omega
  · rw [segEntries, List.pairwise_map]
    exact pairwise_before_shift img.segments _ hwf.1 hpos

theorem scanFrom_some (bs : List Nat) (q c p : Nat)
    (h : scanFrom bs q c = some p) :
    q ≤ p ∧ p < q + c ∧ slice bs p 4 = PARAM_MAGIC := by
  induction c generalizing q with
  | zero => simp [scanFrom] at h
  | succ c ih =>
    rw [scanFrom] at h
    by_cases hm : slice bs q 4 = PARAM_MAGIC
    · rw [if_pos hm] at h
      cases h
      exact ⟨Nat.le_refl _, by omega, hm⟩
    · rw [if_neg hm] at h
      obtain ⟨h1, h2, h3⟩ := ih (q + 1) h
      exact ⟨by omega, by omega, h3⟩

theorem slice4_congr (b1 b2 : List Nat) (q : Nat)
    (h : ∀ i, q ≤ i → i < q + 4 → b2[i]? = b1[i]?) :
    slice b2 q 4 = slice b1 q 4 := by
  apply List.ext_getElem?
  intro j
  simp only [slice_getElem?]
  split_ifs with hj
  · exact h (q + j) (by omega) (by omega)
  · rfl

theorem scanFrom_congr (b1 b2 : List Nat) (q c p : Nat)
    (hs : scanFrom b1 q c = some p)
    (h : ∀ i, q ≤ i → i < p + 4 → b2[i]? = b1[i]?) :
    scanFrom b2 q c = some p := by
  induction c generalizing q with
  | zero => simp [scanFrom] at hs
  | succ c ih =>
    rw [scanFrom] at hs ⊢
    by_cases hm : slice b1 q 4 = PARAM_MAGIC
    · rw [if_pos hm] at hs
      injection hs with hqp
      subst hqp
      rw [if_pos (by rw [slice4_congr b1 b2 q (fun i h1 h2 => h i h1 (by omega))]; exact hm)]
    · rw [if_neg hm] at hs
      have hq : q ≤ p := by
        have := (scanFrom_some b1 (q + 1) c p hs).1
        omega
      have hsl : slice b2 q 4 = slice b1 q 4 :=
        slice4_congr b1 b2 q fun i h1 h2 => h i h1 (by omega)
      rw [if_neg (by rw [hsl]; exact hm)]
      exact ih (q + 1) hs fun i h1 h2 => h i (by omega) h2

theorem scanFrom_none_congr (b1 b2 : List Nat) (q c : Nat)
    (hs : scanFrom b1 q c = none)
    (h : ∀ i, q ≤ i → i < q + c + 3 → b2[i]? = b1[i]?) :
    scanFrom b2 q c = none := by
  induction c generalizing q with
  | zero => rfl
  | succ c ih =>
    rw [scanFrom] at hs ⊢
    by_cases hm : slice b1 q 4 = PARAM_MAGIC
    · rw [if_pos hm] at hs
      cases hs
    · rw [if_neg hm] at hs
      have hsl : slice b2 q 4 = slice b1 q 4 :=
        slice4_congr b1 b2 q fun i h1 h2 => h i h1 (by omega)
      rw [if_neg (by rw [hsl]; exact hm)]
      exact ih (q + 1) hs fun i h1 h2 => h i (by omega) (by omega)

theorem findParamBlockIn_some (bs : List Nat) (segs : List Segment) (p : Nat)
    (h : findParamBlockIn bs segs = some p) :
    ∃ s ∈ segs, s.segType = SegType.loadable ∧ 4 ≤ s.fileSize ∧
      s.fileOffset ≤ p ∧ p + 4 ≤ s.fileOffset + s.fileSize := by
  induction segs with
  | nil => simp [findParamBlockIn] at h
  | cons s rest ih =>
    rw [findParamBlockIn] at h
    by_cases ht : s.segType = SegType.loadable
    · rw [if_pos ht] at h
      cases hf : findInSeg bs s.fileOffset s.fileSize with
      | some q =>
        rw [hf] at h
        cases h
        rw [findInSeg] at hf
        by_cases hsz : 4 ≤ s.fileSize
        · rw [if_pos hsz] at hf
          obtain ⟨h1, h2, _⟩ := scanFrom_some bs s.fileOffset (s.fileSize - 3) p hf
          exact ⟨s, List.mem_cons_self _ _, ht, hsz, h1, by omega⟩
        · rw [if_neg hsz] at hf
          cases hf
      | none =>
        rw [hf] at h
        obtain ⟨s', hmem, hrest⟩ := ih h
        exact ⟨s', List.mem_cons_of_mem _ hmem, hrest⟩
    · rw [if_neg ht] at h
      obtain ⟨s', hmem, hrest⟩ := ih h
      exact ⟨s', List.mem_cons_of_mem _ hmem, hrest⟩

/-- Rewriting bytes at positions `≥ p + 8` cannot change where the
process-parameter block of an ordered segment list is found at `p`. -/
theorem findParamBlockIn_stable (b1 b2 : List Nat) (segs : List Segment) (p : Nat)
    (hfind : findParamBlockIn b1 segs = some p)
    (hagree : ∀ i, i < p + 8 → b2[i]? = b1[i]?)
    (horder : segs.Pairwise Segment.before) :
    findParamBlockIn b2 segs = some p := by
  induction segs with
  | nil => simp [findParamBlockIn] at hfind
  | cons s rest ih =>
    rw [findParamBlockIn] at hfind ⊢
    cases horder with
    | cons hhead htail =>
      by_cases ht : s.segType = SegType.loadable
      · rw [if_pos ht] at hfind ⊢
        cases hf : findInSeg b1 s.fileOffset s.fileSize with
        | some q =>
          rw [hf] at hfind
          cases hfind
          have hf2 : findInSeg b2 s.fileOffset s.fileSize = some p := by
            rw [findInSeg] at hf ⊢
            by_cases hsz : 4 ≤ s.fileSize
            · rw [if_pos hsz] at hf ⊢
              exact scanFrom_congr b1 b2 _ _ _ hf
                fun i h1 h2 => hagree i (by omega)
            · rw [if_neg hsz] at hf
              cases hf
          rw [hf2]
        | none =>
          rw [hf] at hfind
          have hnone2 : findInSeg b2 s.fileOffset s.fileSize = none := by
            rw [findInSeg] at hf ⊢
            by_cases hsz : 4 ≤ s.fileSize
            · rw [if_pos hsz] at hf ⊢
              obtain ⟨s', hmem', _, hsz', hlo', _⟩ :=
                findParamBlockIn_some b1 rest p hfind
              have hbefore := hhead s' hmem'
              have hend : s.fileOffset + s.fileSize ≤ p + 8 := by
                rcases hbefore.2 with hd | hd | hd <;> omega
              exact scanFrom_none_congr b1 b2 _ _ hf
                fun i h1 h2 => hagree i (by omega)
            · rw [if_neg hsz]
          rw [hnone2]
          exact ih hfind htail
      · rw [if_neg ht] at hfind ⊢
        exact ih hfind htail

/-- C2: `patch_metadata` is idempotent on images whose segments satisfy
the spec's ordering/disjointness invariant: a successful patch applied a
second time with the same pair key returns exactly the same image. -/
theorem C2_patch_idempotent (img : Image) (k : Nat) (J : Image)
    (hord : img.segments.Pairwise Segment.before)
    (h : patch_metadata img k = (none, J)) :
    patch_metadata J k = (none, J) := by
  unfold patch_metadata at h
  cases hk : List.lookup k sdkPairs with
  | none => rw [hk] at h; cases h
  | some pr =>
    rw [hk] at h
    obtain ⟨ps5, ps4⟩ := pr
    cases hf : findParamBlock img with
    | none => rw [hf] at h; cases h
    | some p =>
      rw [hf] at h
      injection h with h1 h2
      subst h2
      have hagree : ∀ i, i < p + 8 →
          (writeAt (writeAt img.data (p + PB_SDK_OFF) (writeLE 4 ps5))
            (p + PB_COMPAT_OFF) (writeLE 4 ps4))[i]? = img.data[i]? := by
        intro i hi
        rw [writeAt_getElem?_lo _ _ _ _ (by simp [PB_COMPAT_OFF]; omega),
          writeAt_getElem?_lo _ _ _ _ (by simp [PB_SDK_OFF]; omega)]
      have hfind2 : findParamBlock
          { img with
            data := writeAt (writeAt img.data (p + PB_SDK_OFF) (writeLE 4 ps5))
              (p + PB_COMPAT_OFF) (writeLE 4 ps4) } = some p := by
        rw [findParamBlock]
        exact findParamBlockIn_stable img.data _ img.segments p hf hagree hord
      have hcomm : ∀ X : List Nat,
          writeAt (writeAt X (p + PB_COMPAT_OFF) (writeLE 4 ps4))
              (p + PB_SDK_OFF) (writeLE 4 ps5) =
            writeAt (writeAt X (p + PB_SDK_OFF) (writeLE 4 ps5))
              (p + PB_COMPAT_OFF) (writeLE 4 ps4) := by
        intro X
        exact writeAt_comm X _ _ _ _ (Or.inr (by simp [PB_SDK_OFF, PB_COMPAT_OFF]))
      have e1 : writeAt
          (writeAt (writeAt img.data (p + PB_SDK_OFF) (writeLE 4 ps5))
            (p + PB_COMPAT_OFF) (writeLE 4 ps4)) (p + PB_SDK_OFF) (writeLE 4 ps5) =
          writeAt (writeAt img.data (p + PB_SDK_OFF) (writeLE 4 ps5))
            (p + PB_COMPAT_OFF) (writeLE 4 ps4) := by
        rw [hcomm (writeAt img.data (p + PB_SDK_OFF) (writeLE 4 ps5)),
          writeAt_writeAt_self]
      have hdata : writeAt (writeAt
            (writeAt (writeAt img.data (p + PB_SDK_OFF) (writeLE 4 ps5))
              (p + PB_COMPAT_OFF) (writeLE 4 ps4))
            (p + PB_SDK_OFF) (writeLE 4 ps5)) (p + PB_COMPAT_OFF) (writeLE 4 ps4) =
          writeAt (writeAt img.data (p + PB_SDK_OFF) (writeLE 4 ps5))
            (p + PB_COMPAT_OFF) (writeLE 4 ps4) := by
        rw [e1, writeAt_writeAt_self]
      simp only [patch_metadata, hk, hfind2, hdata]

set_option maxRecDepth 100000 in
/-- Witness for C2 at the spec's concrete scenario image. -/
theorem C2_patch_idempotent_witness :
    patch_metadata ⟨[segC3], bufC3p⟩ 4 = (none, ⟨[segC3], bufC3p⟩) :=
  C2_patch_idempotent imgC3 4 ⟨[segC3], bufC3p⟩ (by decide) (by decide)

/-! ### Replace-then-revert: generic lemmas about `replaceAll` -/

theorem isPrefixOf_iff (x s : List Nat) :
    x.isPrefixOf s = true ↔ s.take x.length = x := by
  induction x generalizing s with
  | nil => simp [List.isPrefixOf]
  | cons a xt ih =>
    cases s with
    | nil => simp [List.isPrefixOf]
    | cons b st =>
      simp only [List.isPrefixOf, Bool.and_eq_true, beq_iff_eq, ih, List.length_cons,
        List.take_succ_cons, List.cons.injEq]
      tauto

theorem replaceAll_nil (pat rep : List Nat) : replaceAll pat rep [] = [] := by
  simp [replaceAll]

theorem replaceAll_cons (pat rep : List Nat) (c : Nat) (t : List Nat) :
    replaceAll pat rep (c :: t) =
      if pat.isPrefixOf (c :: t) && !pat.isEmpty then
        rep ++ replaceAll pat rep ((c :: t).drop pat.length)
      else
        c :: replaceAll pat rep t := by
  rw [replaceAll]

theorem replaceAll_cons_neg (pat rep : List Nat) (c : Nat) (t : List Nat)
    (h : pat.isPrefixOf (c :: t) = false) :
    replaceAll pat rep (c :: t) = c :: replaceAll pat rep t := by
  rw [replaceAll_cons, if_neg]
  simp [h]

/-- Replacing at a pattern occurrence placed at the front. -/
theorem replaceAll_append_pat (pat rep : List Nat) (hpat : pat ≠ [])
    (u : List Nat) :
    replaceAll pat rep (pat ++ u) = rep ++ replaceAll pat rep u := by
  cases hp : pat with
  | nil => exact absurd hp hpat
  | cons p pt =>
    rw [← hp]
    have hcons : pat ++ u = p :: (pt ++ u) := by rw [hp]; rfl
    rw [hcons, replaceAll_cons, if_pos]
    · have hdrop : (p :: (pt ++ u)).drop pat.length = u := by
        rw [← hcons]
        have : pat.length ≤ (pat ++ u).length := by simp
        rw [List.drop_append_eq_append_drop]
        simp
      rw [hdrop]
    · rw [← hcons]
      simp only [Bool.and_eq_true, Bool.not_eq_eq_eq_not, Bool.not_true]
      constructor
      · rw [isPrefixOf_iff]
        rw [List.take_append_eq_append_take]
        simp
      · simp [List.isEmpty_iff, hpat]

theorem isPrefixOf_length_le (x s : List Nat) (h : x.isPrefixOf s = true) :
    x.length ≤ s.length := by
  have := (isPrefixOf_iff x s).mp h
  have h2 := congrArg List.length this
  simp only [List.length_take] at h2
  omega

theorem cond_parts (pat : List Nat) (c : Nat) (t : List Nat)
    (hc : (pat.isPrefixOf (c :: t) && !pat.isEmpty) = true) :
    pat.isPrefixOf (c :: t) = true ∧ pat ≠ [] ∧ 0 < pat.length := by
  simp only [Bool.and_eq_true, Bool.not_eq_eq_eq_not, Bool.not_true] at hc
  have hne : pat ≠ [] := by
    intro hx
    rw [hx] at hc
    simp [List.isEmpty] at hc
  exact ⟨hc.1, hne, List.length_pos.mpr hne⟩

theorem replaceAll_length (pat rep : List Nat) (hlen : pat.length = rep.length)
    (s : List Nat) : (replaceAll pat rep s).length = s.length := by
  suffices h : ∀ (n : Nat) (s : List Nat), s.length ≤ n →
      (replaceAll pat rep s).length = s.length from h s.length s (Nat.le_refl _)
  intro n
  induction n with
  | zero =>
    intro s hs
    cases s with
    | nil => rw [replaceAll_nil]
    | cons c t => simp at hs
  | succ n ih =>
    intro s hs
    cases s with
    | nil => rw [replaceAll_nil]
    | cons c t =>
      rw [replaceAll_cons]
      by_cases hc : (pat.isPrefixOf (c :: t) && !pat.isEmpty) = true
      · rw [if_pos hc]
        obtain ⟨hpf, hne, hpos⟩ := cond_parts pat c t hc
        have hple := isPrefixOf_length_le pat (c :: t) hpf
        have hrec := ih ((c :: t).drop pat.length) (by simp at hs ⊢; omega)
        simp only [List.length_append, hrec, List.length_drop] at *
        omega
      · rw [if_neg hc]
        have hrec := ih t (by simp at hs; omega)
        simp [hrec]

theorem isPrefixOf_cons_cons (a b : Nat) (x s : List Nat) :
    (a :: x).isPrefixOf (b :: s) = ((a == b) && x.isPrefixOf s) := rfl

theorem isPrefixOf_nil (pat : List Nat) :
    pat.isPrefixOf ([] : List Nat) = pat.isEmpty := by
  cases pat <;> rfl

theorem occursIn_iff (pat s : List Nat) :
    occursIn pat s = true ↔ ∃ q, pat.isPrefixOf (s.drop q) = true := by
  induction s with
  | nil =>
    rw [occursIn]
    constructor
    · intro h
      exact ⟨0, by rw [List.drop_nil, isPrefixOf_nil]; exact h⟩
    · rintro ⟨q, hq⟩
      rw [List.drop_nil, isPrefixOf_nil] at hq
      exact hq
  | cons c t ih =>
    rw [occursIn]
    constructor
    · intro h
      rcases Bool.or_eq_true_iff.mp h with hp | ht
      · exact ⟨0, hp⟩
      · obtain ⟨q, hq⟩ := ih.mp ht
        exact ⟨q + 1, by rwa [List.drop_succ_cons]⟩
    · rintro ⟨q, hq⟩
      cases q with
      | zero =>
        rw [List.drop_zero] at hq
        exact Bool.or_eq_true_iff.mpr (Or.inl hq)
      | succ q =>
        rw [List.drop_succ_cons] at hq
        exact Bool.or_eq_true_iff.mpr (Or.inr (ih.mpr ⟨q, hq⟩))

theorem occursIn_drop_imp (pat s : List Nat) (n : Nat)
    (h : occursIn pat (s.drop n) = true) : occursIn pat s = true := by
  rw [occursIn_iff] at h ⊢
  obtain ⟨q, hq⟩ := h
  rw [List.drop_drop] at hq
  exact ⟨n + q, hq⟩

theorem prefix_occursIn (x s : List Nat) (h : x.isPrefixOf s = true) :
    occursIn x s = true := by
  cases s with
  | nil => rw [occursIn]; rwa [isPrefixOf_nil] at h
  | cons c t => rw [occursIn]; exact Bool.or_eq_true_iff.mpr (Or.inl h)

theorem isPrefixOf_append_left (x a b : List Nat)
    (h : x.isPrefixOf (a ++ b) = true) (hlen : x.length ≤ a.length) :
    x.isPrefixOf a = true := by
  rw [isPrefixOf_iff] at h ⊢
  rw [List.take_append_eq_append_take] at h
  have hz : x.length - a.length = 0 := by omega
  rw [hz] at h
  simpa using h

theorem isPrefixOf_append_self (a b : List Nat) :
    a.isPrefixOf (a ++ b) = true := by
  rw [isPrefixOf_iff, List.take_append_eq_append_take]
  simp

/-- Structure of a short prefix of `replaceAll pat rep t`: some initial
bytes copied verbatim from `t` followed by a prefix of `rep`. -/
theorem prefix_replaceAll (pat rep : List Nat) (t x : List Nat)
    (hx : x.isPrefixOf (replaceAll pat rep t) = true)
    (hlen : x.length ≤ rep.length) :
    ∃ j, j ≤ x.length ∧ x.take j = t.take j ∧
      x.drop j = rep.take (x.length - j) := by
  induction t generalizing x with
  | nil =>
    rw [replaceAll_nil] at hx
    rw [isPrefixOf_iff] at hx
    have hx0 : x = [] := by simpa using hx.symm
    exact ⟨0, by simp [hx0], by simp, by simp [hx0]⟩
  | cons c t ih =>
    rw [replaceAll_cons] at hx
    by_cases hc : (pat.isPrefixOf (c :: t) && !pat.isEmpty) = true
    · rw [if_pos hc] at hx
      have hxr : x.isPrefixOf rep = true := isPrefixOf_append_left x rep _ hx hlen
      refine ⟨0, by omega, by simp, ?_⟩
      rw [List.drop_zero, Nat.sub_zero]
      exact ((isPrefixOf_iff x rep).mp hxr).symm
    · rw [if_neg hc] at hx
      cases x with
      | nil => exact ⟨0, by simp, by simp, by simp⟩
      | cons d x' =>
        have hdc : d = c ∧ x'.isPrefixOf (replaceAll pat rep t) = true := by
          rw [isPrefixOf_cons_cons, Bool.and_eq_true, beq_iff_eq] at hx
          exact hx
        obtain ⟨j', hj'le, h1, h2⟩ := ih x' hdc.2 (by simp at hlen ⊢; omega)
        refine ⟨j' + 1, by simp; omega, ?_, ?_⟩
        · simp only [List.take_succ_cons, h1, hdc.1]
        · simp only [List.drop_succ_cons, h2, List.length_cons,
            Nat.succ_sub_succ]

/-- If `rep` does not occur in `c :: t` and has no nontrivial border,
then `rep` is not a prefix of `c ::` the pattern-replaced `t`. -/
theorem rep_not_pref (pat rep : List Nat) (hrep : rep ≠ [])
    (hNB : ∀ k, k < rep.length → 1 ≤ k →
      rep.drop k ≠ rep.take (rep.length - k))
    (c : Nat) (t : List Nat)
    (hnocc : occursIn rep (c :: t) = false) :
    rep.isPrefixOf (c :: replaceAll pat rep t) = false := by
  by_contra hcon
  rw [Bool.not_eq_false] at hcon
  obtain ⟨r, rt, hr⟩ : ∃ r rt, rep = r :: rt := by
    cases rep with
    | nil => exact absurd rfl hrep
    | cons a b => exact ⟨a, b, rfl⟩
  have hcon' : (r :: rt).isPrefixOf (c :: replaceAll pat rep t) = true := by
    rw [← hr]
    exact hcon
  rw [isPrefixOf_cons_cons, Bool.and_eq_true, beq_iff_eq] at hcon'
  obtain ⟨hrceq, hpfx⟩ := hcon'
  obtain ⟨j, hjle, h1, h2⟩ := prefix_replaceAll pat rep t rt hpfx
    (by rw [hr]; simp)
  by_cases hj : j = rt.length
  · subst hj
    have hrt : rt = t.take rt.length := by simpa using h1
    have hpre : rep.isPrefixOf (c :: t) = true := by
      rw [isPrefixOf_iff, hr, List.length_cons, List.take_succ_cons, ← hrt,
        hrceq]
    rw [occursIn, hpre] at hnocc
    simp at hnocc
  · have hlen' : rep.length = rt.length + 1 := by rw [hr]; rfl
    have e1 : rep.drop (j + 1) = rt.drop j := by rw [hr, List.drop_succ_cons]
    have hd : rep.drop (j + 1) = rep.take (rep.length - (j + 1)) := by
      rw [e1, h2]
      have e2 : rep.length - (j + 1) = rt.length - j := by omega
      rw [e2]
    exact hNB (j + 1) (by omega) (by omega) hd

theorem prefix_append_take (x a b : List Nat)
    (h : x.isPrefixOf (a ++ b) = true) (hlen : a.length ≤ x.length) :
    x.take a.length = a := by
  rw [isPrefixOf_iff] at h
  have h2 := congrArg (List.take a.length) h
  rw [List.take_take, min_eq_left hlen, List.take_left] at h2
  exact h2.symm

/-- After replacing, the replacement occurs whenever the pattern did. -/
theorem occursIn_rep_replaceAll (pat rep : List Nat) (hpat : pat ≠ [])
    (s : List Nat) (hocc : occursIn pat s = true) :
    occursIn rep (replaceAll pat rep s) = true := by
  suffices h : ∀ (n : Nat) (s : List Nat), s.length ≤ n → occursIn pat s = true →
      occursIn rep (replaceAll pat rep s) = true from
    h s.length s (Nat.le_refl _) hocc
  intro n
  induction n with
  | zero =>
    intro s hs hocc
    cases s with
    | nil =>
      rw [occursIn] at hocc
      rw [List.isEmpty_iff] at hocc
      exact absurd hocc hpat
    | cons c t => simp at hs
  | succ n ih =>
    intro s hs hocc
    cases s with
    | nil =>
      rw [occursIn] at hocc
      rw [List.isEmpty_iff] at hocc
      exact absurd hocc hpat
    | cons c t =>
      rw [replaceAll_cons]
      by_cases hc : (pat.isPrefixOf (c :: t) && !pat.isEmpty) = true
      · rw [if_pos hc]
        exact prefix_occursIn rep _ (isPrefixOf_append_self rep _)
      · rw [if_neg hc]
        have hpfx : pat.isPrefixOf (c :: t) = false := by
          cases hb : pat.isPrefixOf (c :: t) with
          | false => rfl
          | true =>
            exfalso
            apply hc
            rw [hb]
            simp [List.isEmpty_iff, hpat]
        rw [occursIn, hpfx] at hocc
        simp only [Bool.false_or] at hocc
        have := ih t (by simp at hs; omega) hocc
        rw [occursIn, this]
        simp

/-- After replacing, the pattern no longer occurs anywhere, provided the
replacement did not occur beforehand and no partial overlap between the
two words can fabricate a new occurrence. -/
theorem not_occursIn_pat_replaceAll (pat rep : List Nat) (hpat : pat ≠ [])
    (hlen : pat.length = rep.length) (hne : pat ≠ rep)
    (hNS1 : ∀ k, k < rep.length → 1 ≤ k →
      pat.take (pat.length - k) ≠ rep.drop k)
    (hNS2 : ∀ k, k < pat.length → 1 ≤ k →
      pat.drop k ≠ rep.take (pat.length - k))
    (s : List Nat) (hnocc : occursIn rep s = false) :
    occursIn pat (replaceAll pat rep s) = false := by
  suffices h : ∀ (n : Nat) (s : List Nat), s.length ≤ n → occursIn rep s = false →
      occursIn pat (replaceAll pat rep s) = false from
    h s.length s (Nat.le_refl _) hnocc
  intro n
  induction n with
  | zero =>
    intro s hs hnocc
    cases s with
    | nil =>
      rw [replaceAll_nil, occursIn]
      simpa [List.isEmpty_iff] using hpat
    | cons c t => simp at hs
  | succ n ih =>
    intro s hs hnocc
    cases s with
    | nil =>
      rw [replaceAll_nil, occursIn]
      simpa [List.isEmpty_iff] using hpat
    | cons c t =>
      rw [replaceAll_cons]
      by_cases hc : (pat.isPrefixOf (c :: t) && !pat.isEmpty) = true
      · rw [if_pos hc]
        obtain ⟨hpf, hne', hpos⟩ := cond_parts pat c t hc
        have hnt' : occursIn rep ((c :: t).drop pat.length) = false := by
          cases hb : occursIn rep ((c :: t).drop pat.length) with
          | false => rfl
          | true =>
            exfalso
            have hup := occursIn_drop_imp rep (c :: t) pat.length hb
            rw [hnocc] at hup
            cases hup
        have hu := ih ((c :: t).drop pat.length)
          (by simp at hs ⊢; omega) hnt'
        cases hgoal : occursIn pat
            (rep ++ replaceAll pat rep ((c :: t).drop pat.length)) with
        | false => rfl
        | true =>
          exfalso
          obtain ⟨q, hq⟩ := (occursIn_iff pat _).mp hgoal
          by_cases hqr : rep.length ≤ q
          · rw [List.drop_append_eq_append_drop] at hq
            rw [List.drop_eq_nil_of_le (by omega)] at hq
            rw [List.nil_append] at hq
            have hocc2 : occursIn pat
                (replaceAll pat rep ((c :: t).drop pat.length)) = true :=
              (occursIn_iff pat _).mpr ⟨q - rep.length, hq⟩
            rw [hocc2] at hu
            cases hu
          · by_cases hq0 : q = 0
            · subst hq0
              rw [List.drop_zero, isPrefixOf_iff,
                List.take_append_eq_append_take] at hq
              rw [hlen, List.take_length, Nat.sub_self, List.take_zero,
                List.append_nil] at hq
              exact hne hq.symm
            · rw [List.drop_append_eq_append_drop] at hq
              have htk : pat.take (rep.drop q).length = rep.drop q :=
                prefix_append_take pat (rep.drop q) _ hq (by simp; omega)
              have hdl : (rep.drop q).length = rep.length - q := by simp
              rw [hdl] at htk
              exact hNS1 q (by omega) (by omega) (by rw [hlen]; exact htk)
      · rw [if_neg hc]
        have hoccT : occursIn rep t = false := by
          rw [occursIn] at hnocc
          rcases Bool.or_eq_false_iff.mp hnocc with ⟨h1, h2⟩
          exact h2
        have hu := ih t (by simp at hs; omega) hoccT
        have hpfx_false : pat.isPrefixOf (c :: t) = false := by
          cases hb : pat.isPrefixOf (c :: t) with
          | false => rfl
          | true =>
            exfalso
            apply hc
            rw [hb]
            simp [List.isEmpty_iff, hpat]
        rw [occursIn, hu]
        rw [Bool.or_false]
        obtain ⟨p, pt, hp⟩ : ∃ p pt, pat = p :: pt := by
          cases pat with
          | nil => exact absurd rfl hpat
          | cons a b => exact ⟨a, b, rfl⟩
        cases hgoal : pat.isPrefixOf (c :: replaceAll pat rep t) with
        | false => rfl
        | true =>
          exfalso
          have hcon' : (p :: pt).isPrefixOf (c :: replaceAll pat rep t) = true := by
            rw [← hp]
            exact hgoal
          rw [isPrefixOf_cons_cons, Bool.and_eq_true, beq_iff_eq] at hcon'
          obtain ⟨hpceq, hpfx2⟩ := hcon'
          obtain ⟨j, hjle, h1, h2⟩ := prefix_replaceAll pat rep t pt hpfx2
            (by rw [hp] at hlen; simp at hlen; omega)
          by_cases hj : j = pt.length
          · subst hj
            have hpt : pt = t.take pt.length := by simpa using h1
            have hpre : pat.isPrefixOf (c :: t) = true := by
              rw [isPrefixOf_iff, hp, List.length_cons, List.take_succ_cons,
                ← hpt, hpceq]
            rw [hpre] at hpfx_false
            cases hpfx_false
          · have hlen' : pat.length = pt.length + 1 := by rw [hp]; rfl
            have e1 : pat.drop (j + 1) = pt.drop j := by
              rw [hp, List.drop_succ_cons]
            have hd : pat.drop (j + 1) = rep.take (pat.length - (j + 1)) := by
              rw [e1, h2]
              have e2 : pat.length - (j + 1) = pt.length - j := by omega
              rw [e2]
            exact hNS2 (j + 1) (by omega) (by omega) hd

/-- Replacing the replacement back with the pattern undoes the original
replacement, provided the replacement was absent beforehand and has no
nontrivial border. -/
theorem replaceAll_roundTrip (pat rep : List Nat) (_hpat : pat ≠ [])
    (hrep : rep ≠ [])
    (hNB : ∀ k, k < rep.length → 1 ≤ k →
      rep.drop k ≠ rep.take (rep.length - k))
    (s : List Nat) (hnocc : occursIn rep s = false) :
    replaceAll rep pat (replaceAll pat rep s) = s := by
  suffices h : ∀ (n : Nat) (s : List Nat), s.length ≤ n → occursIn rep s = false →
      replaceAll rep pat (replaceAll pat rep s) = s from
    h s.length s (Nat.le_refl _) hnocc
  intro n
  induction n with
  | zero =>
    intro s hs hnocc
    cases s with
    | nil => rw [replaceAll_nil, replaceAll_nil]
    | cons c t => simp at hs
  | succ n ih =>
    intro s hs hnocc
    cases s with
    | nil => rw [replaceAll_nil, replaceAll_nil]
    | cons c t =>
      by_cases hc : (pat.isPrefixOf (c :: t) && !pat.isEmpty) = true
      · obtain ⟨hpf, hne', hpos⟩ := cond_parts pat c t hc
        have hsplit : c :: t = pat ++ (c :: t).drop pat.length := by
          conv_lhs => rw [← List.take_append_drop pat.length (c :: t)]
          rw [(isPrefixOf_iff pat (c :: t)).mp hpf]
        have hnd : occursIn rep ((c :: t).drop pat.length) = false := by
          cases hb : occursIn rep ((c :: t).drop pat.length) with
          | false => rfl
          | true =>
            exfalso
            have hup := occursIn_drop_imp rep (c :: t) pat.length hb
            rw [hnocc] at hup
            cases hup
        rw [hsplit, replaceAll_append_pat pat rep hne',
          replaceAll_append_pat rep pat hrep,
          ih ((c :: t).drop pat.length) (by simp at hs ⊢; omega) hnd]
      · have hoccT : occursIn rep t = false := by
          rw [occursIn] at hnocc
          exact (Bool.or_eq_false_iff.mp hnocc).2
        rw [replaceAll_cons, if_neg hc]
        rw [replaceAll_cons_neg rep pat c (replaceAll pat rep t)
          (rep_not_pref pat rep hrep hNB c t hnocc)]
        rw [ih t (by simp at hs; omega) hoccT]

set_option maxRecDepth 10000 in
/-- C10: on any file content containing the libc search pattern and not
the replacement pattern, applying the libc patch and then reverting it
restores the original bytes exactly, and the patch step preserves the
file length (both patterns are 15 bytes). -/
theorem C10_libc_patch_roundTrip (cb1 cb2 : Bool) (content : List Nat)
    (hpat : occursIn LIBC_PATCH_PATTERN content = true)
    (hrep : occursIn LIBC_PATCH_REPLACEMENT content = false) :
    revertLibcPatchFile cb2 (applyLibcPatchFile cb1 content) = content ∧
    (applyLibcPatchFile cb1 content).length = content.length ∧
    LIBC_PATCH_PATTERN.length = 15 ∧ LIBC_PATCH_REPLACEMENT.length = 15 := by
  have hP : LIBC_PATCH_PATTERN ≠ [] := by decide
  have hR : LIBC_PATCH_REPLACEMENT ≠ [] := by decide
  have hlen : LIBC_PATCH_PATTERN.length = LIBC_PATCH_REPLACEMENT.length := by
    decide
  have hne : LIBC_PATCH_PATTERN ≠ LIBC_PATCH_REPLACEMENT := by decide
  have hNB : ∀ k, k < LIBC_PATCH_REPLACEMENT.length → 1 ≤ k →
      LIBC_PATCH_REPLACEMENT.drop k ≠
        LIBC_PATCH_REPLACEMENT.take (LIBC_PATCH_REPLACEMENT.length - k) := by
    decide
  have hNS1 : ∀ k, k < LIBC_PATCH_REPLACEMENT.length → 1 ≤ k →
      LIBC_PATCH_PATTERN.take (LIBC_PATCH_PATTERN.length - k) ≠
        LIBC_PATCH_REPLACEMENT.drop k := by decide
  have hNS2 : ∀ k, k < LIBC_PATCH_PATTERN.length → 1 ≤ k →
      LIBC_PATCH_PATTERN.drop k ≠
        LIBC_PATCH_REPLACEMENT.take (LIBC_PATCH_PATTERN.length - k) := by
    decide
  have hL1 : occursIn LIBC_PATCH_REPLACEMENT
      (replaceAll LIBC_PATCH_PATTERN LIBC_PATCH_REPLACEMENT content) = true :=
    occursIn_rep_replaceAll _ _ hP content hpat
  have hL2 : occursIn LIBC_PATCH_PATTERN
      (replaceAll LIBC_PATCH_PATTERN LIBC_PATCH_REPLACEMENT content) = false :=
    not_occursIn_pat_replaceAll _ _ hP hlen hne hNS1 hNS2 content hrep
  have hA : applyLibcPatchFile cb1 content =
      replaceAll LIBC_PATCH_PATTERN LIBC_PATCH_REPLACEMENT content := by
    rw [applyLibcPatchFile, if_pos hpat, if_neg (by rw [hrep]; simp)]
    simp only [hL1, hL2]
    rw [if_pos (by simp)]
  have hRT : replaceAll LIBC_PATCH_REPLACEMENT LIBC_PATCH_PATTERN
      (replaceAll LIBC_PATCH_PATTERN LIBC_PATCH_REPLACEMENT content) = content :=
    replaceAll_roundTrip _ _ hP hR hNB content hrep
  have hV : revertLibcPatchFile cb2
      (replaceAll LIBC_PATCH_PATTERN LIBC_PATCH_REPLACEMENT content) = content := by
    rw [revertLibcPatchFile, if_pos hL1, if_neg (by rw [hL2]; simp)]
    simp only [hRT, hpat, hrep]
    rw [if_pos (by simp)]
  refine ⟨by rw [hA, hV], by rw [hA]; exact replaceAll_length _ _ hlen content,
    by decide, by decide⟩

/-- Witness for C10: a file that is exactly one occurrence of the search
pattern. -/
theorem C10_libc_patch_roundTrip_witness :
    revertLibcPatchFile false (applyLibcPatchFile false LIBC_PATCH_PATTERN) =
      LIBC_PATCH_PATTERN ∧
    (applyLibcPatchFile false LIBC_PATCH_PATTERN).length =
      LIBC_PATCH_PATTERN.length ∧
    LIBC_PATCH_PATTERN.length = 15 ∧ LIBC_PATCH_REPLACEMENT.length = 15 :=
  C10_libc_patch_roundTrip false false LIBC_PATCH_PATTERN (by decide) (by decide)

/-- Witness for C8 (amended) at the well-formed one-segment image. -/
theorem C8_alignment_invariant_witness :
    (∀ e0 ∈ (segEntries imgT).take 1, e0.offset % FIRST_SEG_ALIGN = 0) ∧
    (segEntries imgT).Pairwise
      (fun a b => a.offset < b.offset ∧ a.offset + a.plainSize ≤ b.offset) :=
  C8_alignment_invariant imgT idFake
    ((encode_container imgT idFake).toOption.getD [])
    (by decide) (by decide) (by decide) rfl

/-! ### Serialized-container lemmas for the round-trip and truncation claims -/

theorem encHeader_length (total n : Nat) :
    (encHeader total n).length = HEADER_SIZE := by
  simp [encHeader, CF_MAGIC, HEADER_SIZE]

theorem encAuthInfo_length (d : Identity) :
    (encAuthInfo d).length = META_SIZE := by
  rcases d with ⟨paid, pt, av, fv, ai⟩
  cases ai with
  | none => simp [encAuthInfo, META_SIZE, AUTH_BLOB_SIZE, pad]
  | some blob =>
    simp only [encAuthInfo, List.length_append, writeLE_length,
      List.length_take, pad_length, AUTH_BLOB_SIZE, META_SIZE]
    omega

theorem encEntry_length (e : SegEntry) : (encEntry e).length = ENTRY_SIZE := by
  simp [encEntry, ENTRY_SIZE]

theorem entryBytes_length (es : List SegEntry) :
    ((es.map encEntry).flatten).length = es.length * ENTRY_SIZE := by
  induction es with
  | nil => simp
  | cons e es ih =>
    simp only [List.map_cons, List.flatten_cons, List.length_append, ih,
      encEntry_length, List.length_cons]
    ring

theorem segEntries_length (img : Image) :
    (segEntries img).length = img.segments.length := by
  simp [segEntries]

theorem encode_ok (img : Image) (d : Identity) (hne : img.segments ≠ [])
    (hpt : d.ptype ∈ recognizedPtypes) :
    encode_container img d = .ok
      (encHeader (baseOffsetFor img.segments.length + img.data.length)
          img.segments.length ++
        (encAuthInfo d ++ (((segEntries img).map encEntry).flatten ++
          (pad (baseOffsetFor img.segments.length -
            (segTableOff + img.segments.length * ENTRY_SIZE)) ++ img.data)))) := by
  rw [encode_container, if_neg (by simpa [List.isEmpty_iff] using hne),
    if_pos hpt]
  simp [List.append_assoc]

theorem enc_take4 (total n : Nat) (rest : List Nat) :
    (encHeader total n ++ rest).take 4 = CF_MAGIC := by
  rw [encHeader, CF_MAGIC]
  simp

theorem enc_read_hs (total n : Nat) (rest : List Nat) :
    readLE 4 (encHeader total n ++ rest) 12 = some HEADER_SIZE := by
  have h := readLE_at_append
    (CF_MAGIC ++ writeLE 4 FORMAT_VERSION ++ writeLE 4 KEY_TYPE)
    (writeLE 4 META_SIZE ++ (writeLE 8 total ++ (writeLE 4 n ++ rest)))
    4 HEADER_SIZE
  have hlen : (CF_MAGIC ++ writeLE 4 FORMAT_VERSION ++
      writeLE 4 KEY_TYPE).length = 12 := by simp [CF_MAGIC]
  rw [hlen] at h
  have hlist : (CF_MAGIC ++ writeLE 4 FORMAT_VERSION ++ writeLE 4 KEY_TYPE) ++
      (writeLE 4 HEADER_SIZE ++ (writeLE 4 META_SIZE ++
        (writeLE 8 total ++ (writeLE 4 n ++ rest)))) =
      encHeader total n ++ rest := by
    rw [encHeader]
    simp only [List.append_assoc]
  rw [hlist] at h
  rw [h]
  norm_num [HEADER_SIZE]

theorem enc_read_ms (total n : Nat) (rest : List Nat) :
    readLE 4 (encHeader total n ++ rest) 16 = some META_SIZE := by
  have h := readLE_at_append
    (CF_MAGIC ++ writeLE 4 FORMAT_VERSION ++ writeLE 4 KEY_TYPE ++
      writeLE 4 HEADER_SIZE)
    (writeLE 8 total ++ (writeLE 4 n ++ rest)) 4 META_SIZE
  have hlen : (CF_MAGIC ++ writeLE 4 FORMAT_VERSION ++ writeLE 4 KEY_TYPE ++
      writeLE 4 HEADER_SIZE).length = 16 := by simp [CF_MAGIC]
  rw [hlen] at h
  have hlist : (CF_MAGIC ++ writeLE 4 FORMAT_VERSION ++ writeLE 4 KEY_TYPE ++
      writeLE 4 HEADER_SIZE) ++ (writeLE 4 META_SIZE ++
        (writeLE 8 total ++ (writeLE 4 n ++ rest))) =
      encHeader total n ++ rest := by
    rw [encHeader]
    simp only [List.append_assoc]
  rw [hlist] at h
  rw [h]
  norm_num [META_SIZE]

theorem enc_read_total (total n : Nat) (rest : List Nat) :
    readLE 8 (encHeader total n ++ rest) 20 = some (total % 256 ^ 8) := by
  have h := readLE_at_append
    (CF_MAGIC ++ writeLE 4 FORMAT_VERSION ++ writeLE 4 KEY_TYPE ++
      writeLE 4 HEADER_SIZE ++ writeLE 4 META_SIZE)
    (writeLE 4 n ++ rest) 8 total
  have hlen : (CF_MAGIC ++ writeLE 4 FORMAT_VERSION ++ writeLE 4 KEY_TYPE ++
      writeLE 4 HEADER_SIZE ++ writeLE 4 META_SIZE).length = 20 := by
    simp [CF_MAGIC]
  rw [hlen] at h
  have hlist : (CF_MAGIC ++ writeLE 4 FORMAT_VERSION ++ writeLE 4 KEY_TYPE ++
      writeLE 4 HEADER_SIZE ++ writeLE 4 META_SIZE) ++
      (writeLE 8 total ++ (writeLE 4 n ++ rest)) =
      encHeader total n ++ rest := by
    rw [encHeader]
    simp only [List.append_assoc]
  rw [hlist] at h
  exact h

theorem enc_read_n (total n : Nat) (rest : List Nat) (hn : n < 2 ^ 32) :
    readLE 4 (encHeader total n ++ rest) 28 = some n := by
  have h := readLE_at_append
    (CF_MAGIC ++ writeLE 4 FORMAT_VERSION ++ writeLE 4 KEY_TYPE ++
      writeLE 4 HEADER_SIZE ++ writeLE 4 META_SIZE ++ writeLE 8 total)
    rest 4 n
  have hlen : (CF_MAGIC ++ writeLE 4 FORMAT_VERSION ++ writeLE 4 KEY_TYPE ++
      writeLE 4 HEADER_SIZE ++ writeLE 4 META_SIZE ++ writeLE 8 total).length =
      28 := by simp [CF_MAGIC]
  rw [hlen] at h
  have hlist : (CF_MAGIC ++ writeLE 4 FORMAT_VERSION ++ writeLE 4 KEY_TYPE ++
      writeLE 4 HEADER_SIZE ++ writeLE 4 META_SIZE ++ writeLE 8 total) ++
      (writeLE 4 n ++ rest) = encHeader total n ++ rest := by
    rw [encHeader]
    simp only [List.append_assoc]
  rw [hlist] at h
  rw [h]
  congr 1
  have : (256 : Nat) ^ 4 = 2 ^ 32 := by norm_num
  rw [this]
  exact Nat.mod_eq_of_lt hn

theorem mod_256_8 (x : Nat) (h : x < 2 ^ 64) : x % 256 ^ 8 = x := by
  have h2 : (256 : Nat) ^ 8 = 2 ^ 64 := by norm_num
  rw [h2]
  exact Nat.mod_eq_of_lt h

theorem readEntries_ok (bs : List Nat) :
    ∀ (es : List SegEntry) (pre rest : List Nat),
    bs = pre ++ ((es.map encEntry).flatten ++ rest) →
    (∀ e ∈ es, e.offset < 2 ^ 64 ∧ e.compSize < 2 ^ 64 ∧ e.plainSize < 2 ^ 64 ∧
      e.flags < 2 ^ 64) →
    (∀ e ∈ es, e.offset + e.plainSize ≤ bs.length) →
    (∀ e ∈ es, e.flags % 2 = 0 ∧ e.flags / 2 % 2 = 0) →
    readEntries bs pre.length es.length = .ok es := by
  intro es
  induction es with
  | nil =>
    intro pre rest hbs hw hb hf
    rfl
  | cons e es ih =>
    intro pre rest hbs hw hb hf
    have hbs' : bs = pre ++ (writeLE 8 e.offset ++ (writeLE 8 e.compSize ++
        (writeLE 8 e.plainSize ++ (writeLE 8 e.flags ++
          ((es.map encEntry).flatten ++ rest))))) := by
      rw [hbs]
      simp only [List.map_cons, List.flatten_cons, encEntry, List.append_assoc]
    obtain ⟨hw1, hw2, hw3, hw4⟩ := hw e (List.mem_cons_self _ _)
    have r1 : readLE 8 bs pre.length = some e.offset := by
      have h := readLE_at_append pre (writeLE 8 e.compSize ++
        (writeLE 8 e.plainSize ++ (writeLE 8 e.flags ++
          ((es.map encEntry).flatten ++ rest)))) 8 e.offset
      rw [← hbs'] at h
      rw [h, mod_256_8 _ hw1]
    have r2 : readLE 8 bs (pre.length + 8) = some e.compSize := by
      have h := readLE_at_append (pre ++ writeLE 8 e.offset)
        (writeLE 8 e.plainSize ++ (writeLE 8 e.flags ++
          ((es.map encEntry).flatten ++ rest))) 8 e.compSize
      have hlen : (pre ++ writeLE 8 e.offset).length = pre.length + 8 := by simp
      rw [hlen] at h
      have hlist : (pre ++ writeLE 8 e.offset) ++ (writeLE 8 e.compSize ++
          (writeLE 8 e.plainSize ++ (writeLE 8 e.flags ++
            ((es.map encEntry).flatten ++ rest)))) = bs := by
        rw [hbs']
        simp only [List.append_assoc]
      rw [hlist] at h
      rw [h, mod_256_8 _ hw2]
    have r3 : readLE 8 bs (pre.length + 16) = some e.plainSize := by
      have h := readLE_at_append (pre ++ writeLE 8 e.offset ++ writeLE 8 e.compSize)
        (writeLE 8 e.flags ++ ((es.map encEntry).flatten ++ rest)) 8 e.plainSize
      have hlen : (pre ++ writeLE 8 e.offset ++ writeLE 8 e.compSize).length =
          pre.length + 16 := by simp
      rw [hlen] at h
      have hlist : (pre ++ writeLE 8 e.offset ++ writeLE 8 e.compSize) ++
          (writeLE 8 e.plainSize ++ (writeLE 8 e.flags ++
            ((es.map encEntry).flatten ++ rest))) = bs := by
        rw [hbs']
        simp only [List.append_assoc]
      rw [hlist] at h
      rw [h, mod_256_8 _ hw3]
    have r4 : readLE 8 bs (pre.length + 24) = some e.flags := by
      have h := readLE_at_append
        (pre ++ writeLE 8 e.offset ++ writeLE 8 e.compSize ++ writeLE 8 e.plainSize)
        ((es.map encEntry).flatten ++ rest) 8 e.flags
      have hlen : (pre ++ writeLE 8 e.offset ++ writeLE 8 e.compSize ++
          writeLE 8 e.plainSize).length = pre.length + 24 := by simp
      rw [hlen] at h
      have hlist : (pre ++ writeLE 8 e.offset ++ writeLE 8 e.compSize ++
          writeLE 8 e.plainSize) ++ (writeLE 8 e.flags ++
            ((es.map encEntry).flatten ++ rest)) = bs := by
        rw [hbs']
        simp only [List.append_assoc]
      rw [hlist] at h
      rw [h, mod_256_8 _ hw4]
    have hflag := hf e (List.mem_cons_self _ _)
    have hrec := ih (pre ++ encEntry e) rest
      (by
        rw [hbs]
        simp only [List.map_cons, List.flatten_cons, List.append_assoc])
      (fun e' he' => hw e' (List.mem_cons_of_mem _ he'))
      (fun e' he' => hb e' (List.mem_cons_of_mem _ he'))
      (fun e' he' => hf e' (List.mem_cons_of_mem _ he'))
    have hlenE : (pre ++ encEntry e).length = pre.length + 32 := by
      simp [encEntry_length, ENTRY_SIZE]
    rw [hlenE] at hrec
    show readEntries bs pre.length (es.length + 1) = .ok (e :: es)
    rw [readEntries]
    simp only [r1, r2, r3, r4]
    rw [if_pos (hb e (List.mem_cons_self _ _))]
    rw [if_neg (by omega)]
    have hE : pre.length + ENTRY_SIZE = pre.length + 32 := rfl
    rw [hE, hrec]

theorem writeAt_nil_xs (buf : List Nat) (q : Nat) : writeAt buf q [] = buf := by
  induction buf generalizing q with
  | nil => rfl
  | cons b t ih =>
    cases q with
    | zero => rfl
    | succ q => simp [writeAt, ih]

theorem slice_length_of_fit (bs : List Nat) (i w : Nat) (h : i + w ≤ bs.length) :
    (slice bs i w).length = w := by
  simp [slice]
  omega

theorem slice_append_offset (a b : List Nat) (i w : Nat) :
    slice (a ++ b) (a.length + i) w = slice b i w := by
  apply List.ext_getElem?
  intro j
  simp only [slice_getElem?, List.getElem?_append]
  split_ifs <;> first
    | rfl
    | (exfalso; omega)
    | (congr 1; omega)

theorem slice_writeAt_out (buf : List Nat) (q : Nat) (xs : List Nat) (p w : Nat)
    (h : q + xs.length ≤ p ∨ p + w ≤ q) :
    slice (writeAt buf q xs) p w = slice buf p w := by
  apply List.ext_getElem?
  intro j
  simp only [slice_getElem?]
  split_ifs with hj
  · rcases h with h | h
    · exact writeAt_getElem?_hi buf q xs (p + j) (by omega)
    · exact writeAt_getElem?_lo buf q xs (p + j) (by omega)
  · rfl

theorem slice_writeAt_self (buf : List Nat) (q : Nat) (xs : List Nat)
    (hfit : q + xs.length ≤ buf.length) :
    slice (writeAt buf q xs) q xs.length = xs := by
  apply List.ext_getElem?
  intro j
  simp only [slice_getElem?]
  split_ifs with hj
  · rw [writeAt_getElem?_mid buf q xs (q + j) (by omega) (by omega) (by omega)]
    congr 1
    omega
  · exact (List.getElem?_eq_none (by omega)).symm

theorem copySegments_nil (bs : List Nat) (base : Nat) (buf : List Nat) :
    copySegments bs base [] buf = buf := rfl

theorem copySegments_cons (bs : List Nat) (base : Nat) (e : SegEntry)
    (es : List SegEntry) (buf : List Nat) :
    copySegments bs base (e :: es) buf =
      copySegments bs base es
        (writeAt buf (e.offset - base) (slice bs e.offset e.plainSize)) := rfl

theorem copySegments_length (bs : List Nat) (base : Nat) :
    ∀ (es : List SegEntry) (buf : List Nat),
    (copySegments bs base es buf).length = buf.length := by
  intro es
  induction es with
  | nil => intro buf; rfl
  | cons e es ih =>
    intro buf
    rw [copySegments_cons, ih]
    simp

theorem copySegments_frame (bs : List Nat) (base : Nat) :
    ∀ (es : List SegEntry) (buf : List Nat) (p w : Nat),
    (∀ e ∈ es, e.offset - base + e.plainSize ≤ p ∨ p + w ≤ e.offset - base ∨
      e.plainSize = 0) →
    (∀ e ∈ es, e.offset + e.plainSize ≤ bs.length) →
    slice (copySegments bs base es buf) p w = slice buf p w := by
  intro es
  induction es with
  | nil => intro buf p w hd hs; rfl
  | cons e es ih =>
    intro buf p w hd hs
    rw [copySegments_cons]
    rw [ih _ p w (fun e' he' => hd e' (List.mem_cons_of_mem _ he'))
      (fun e' he' => hs e' (List.mem_cons_of_mem _ he'))]
    rcases hd e (List.mem_cons_self _ _) with h | h | h
    · apply slice_writeAt_out
      left
      rw [slice_length_of_fit bs e.offset e.plainSize (hs e (List.mem_cons_self _ _))]
      exact h
    · apply slice_writeAt_out
      right
      exact h
    · have hsl : slice bs e.offset e.plainSize = [] := by
        rw [h]
        simp [slice]
      rw [hsl, writeAt_nil_xs]

theorem le_coverageEnd (base : Nat) :
    ∀ (es : List SegEntry) (e : SegEntry), e ∈ es →
    e.offset - base + e.plainSize ≤ coverageEnd base es := by
  intro es
  induction es with
  | nil => intro e he; cases he
  | cons e0 es ih =>
    intro e he
    rw [coverageEnd, List.foldr_cons]
    rcases List.mem_cons.mp he with h | h
    · subst h
      exact le_max_left _ _
    · exact le_trans (ih e h) (le_max_right _ _)

theorem copySegments_slice (bs : List Nat) (base : Nat) :
    ∀ (es : List SegEntry) (buf : List Nat),
    (∀ e ∈ es, e.offset - base + e.plainSize ≤ buf.length) →
    (∀ e ∈ es, e.offset + e.plainSize ≤ bs.length) →
    es.Pairwise (fun e1 e2 => e1.offset - base + e1.plainSize ≤ e2.offset - base ∨
      e1.plainSize = 0 ∨ e2.plainSize = 0) →
    ∀ e ∈ es, slice (copySegments bs base es buf) (e.offset - base) e.plainSize =
      slice bs e.offset e.plainSize := by
  intro es
  induction es with
  | nil => intro buf hfit hsl hpw e he; cases he
  | cons e0 es ih =>
    intro buf hfit hsl hpw e he
    rw [copySegments_cons]
    cases hpw with
    | cons hhead htail =>
      rcases List.mem_cons.mp he with h | h
      · subst h
        by_cases hz : e.plainSize = 0
        · rw [hz]
          simp [slice]
        · rw [copySegments_frame bs base es _ _ _
            (fun e' he' => by
              rcases hhead e' he' with hd | hd | hd
              · exact Or.inr (Or.inl hd)
              · exact absurd hd hz
              · exact Or.inr (Or.inr hd))
            (fun e' he' => hsl e' (List.mem_cons_of_mem _ he'))]
          have hxs : (slice bs e.offset e.plainSize).length = e.plainSize :=
            slice_length_of_fit bs e.offset e.plainSize
              (hsl e (List.mem_cons_self _ _))
          have := slice_writeAt_self buf (e.offset - base)
            (slice bs e.offset e.plainSize)
            (by rw [hxs]; exact hfit e (List.mem_cons_self _ _))
          rw [hxs] at this
          exact this
      · exact ih _ (fun e' he' => by
            rw [writeAt_length]
            exact hfit e' (List.mem_cons_of_mem _ he'))
          (fun e' he' => hsl e' (List.mem_cons_of_mem _ he')) htail e h

theorem alignUp_le_add (x a : Nat) : alignUp x a ≤ x + a := by
  rw [alignUp]
  split <;> omega

/-- C1: decoding an encoded container reconstructs the original image —
same segment count, same order, same image-relative offsets and sizes,
and bit-identical payload bytes — for every well-formed image with at
least one segment and every identity with a recognized program type. -/
theorem C1_round_trip (img : Image) (d : Identity)
    (hwf : img.WF) (hne : img.segments ≠ [])
    (hpt : d.ptype ∈ recognizedPtypes) :
    ∃ bs J, encode_container img d = .ok bs ∧ decode_container bs = .ok J ∧
      J.segments.length = img.segments.length ∧
      J.segments.map (fun s => (s.fileOffset, s.fileSize)) =
        img.segments.map (fun s => (s.fileOffset, s.fileSize)) ∧
      ∀ s ∈ img.segments, slice J.data s.fileOffset s.fileSize =
        slice img.data s.fileOffset s.fileSize := by
  obtain ⟨hpw, hbound, hdlen, hslen⟩ := hwf
  have henc := encode_ok img d hne hpt
  set n := img.segments.length with hn_def
  set base := baseOffsetFor n with hbase_def
  set total := base + img.data.length with htotal_def
  set T := ((segEntries img).map encEntry).flatten with hT_def
  set P := pad (base - (segTableOff + n * ENTRY_SIZE)) with hP_def
  set bs := encHeader total n ++ (encAuthInfo d ++ (T ++ (P ++ img.data)))
    with hbs_def
  clear_value n base total T P bs
  have hc1 : segTableOff = 96 := rfl
  have hc2 : ENTRY_SIZE = 32 := rfl
  have hc5 : FIRST_SEG_ALIGN = 64 := rfl
  have hbase_ge : 96 + n * 32 ≤ base := by
    rw [hbase_def, baseOffsetFor, hc1, hc2]
    exact le_alignUp _ _
  have hbase_le : base ≤ 96 + n * 32 + 64 := by
    rw [hbase_def, baseOffsetFor, hc1, hc2, hc5]
    exact alignUp_le_add _ _
  have hT_len : T.length = n * 32 := by
    rw [hT_def, entryBytes_length, segEntries_length, hn_def, hc2]
  have hP_len : P.length = base - (96 + n * 32) := by
    rw [hP_def, pad_length, hc1, hc2]
  have hbs_len : bs.length = base + img.data.length := by
    rw [hbs_def]
    simp only [List.length_append, encHeader_length, encAuthInfo_length,
      hT_len, hP_len]
    have hc3 : HEADER_SIZE = 32 := rfl
    have hc4 : META_SIZE = 64 := rfl
    omega
  -- header reads
  have h4 : bs.take 4 = CF_MAGIC := by
    rw [hbs_def]
    exact enc_take4 total n _
  have hhs : readLE 4 bs 12 = some HEADER_SIZE := by
    rw [hbs_def]
    exact enc_read_hs total n _
  have hms : readLE 4 bs 16 = some META_SIZE := by
    rw [hbs_def]
    exact enc_read_ms total n _
  have hn32 : n < 2 ^ 32 := hslen
  have hnr : readLE 4 bs 28 = some n := by
    rw [hbs_def]
    exact enc_read_n total n _ hn32
  -- segment table entries
  have hshape : bs = (encHeader total n ++ encAuthInfo d) ++
      (T ++ (P ++ img.data)) := by
    rw [hbs_def]
    simp only [List.append_assoc]
  have hpre96 : (encHeader total n ++ encAuthInfo d).length = 96 := by
    simp only [List.length_append, encHeader_length, encAuthInfo_length]
    have hc3 : HEADER_SIZE = 32 := rfl
    have hc4 : META_SIZE = 64 := rfl
    omega
  have hentry_shape : ∀ e ∈ segEntries img, ∃ s ∈ img.segments,
      e = ⟨base + s.fileOffset, s.fileSize, s.fileSize, SEG_FLAGS_BLOCKED⟩ := by
    intro e he
    rw [segEntries, ← hn_def, ← hbase_def] at he
    obtain ⟨s, hs, hse⟩ := List.mem_map.mp he
    exact ⟨s, hs, hse.symm⟩
  have hpow : 96 + 2 ^ 32 * 32 + 64 + 2 ^ 32 + 2 ^ 32 ≤ 2 ^ 64 := by norm_num
  have hw : ∀ e ∈ segEntries img, e.offset < 2 ^ 64 ∧ e.compSize < 2 ^ 64 ∧
      e.plainSize < 2 ^ 64 ∧ e.flags < 2 ^ 64 := by
    intro e he
    obtain ⟨s, hs, rfl⟩ := hentry_shape e he
    have hof := hbound s hs
    refine ⟨?_, ?_, ?_, ?_⟩
    · show base + s.fileOffset < 2 ^ 64
      omega
    · show s.fileSize < 2 ^ 64
      omega
    · show s.fileSize < 2 ^ 64
      omega
    · show SEG_FLAGS_BLOCKED < 2 ^ 64
      have : SEG_FLAGS_BLOCKED = 4 := rfl
      omega
  have hb : ∀ e ∈ segEntries img, e.offset + e.plainSize ≤ bs.length := by
    intro e he
    obtain ⟨s, hs, rfl⟩ := hentry_shape e he
    have hof := hbound s hs
    rw [hbs_len]
    show base + s.fileOffset + s.fileSize ≤ base + img.data.length
    omega
  have hf : ∀ e ∈ segEntries img, e.flags % 2 = 0 ∧ e.flags / 2 % 2 = 0 := by
    intro e he
    obtain ⟨s, hs, rfl⟩ := hentry_shape e he
    constructor
    · show SEG_FLAGS_BLOCKED % 2 = 0
      decide
    · show SEG_FLAGS_BLOCKED / 2 % 2 = 0
      decide
  have hre0 := readEntries_ok bs (segEntries img)
    (encHeader total n ++ encAuthInfo d) (P ++ img.data)
    (by rw [hshape, hT_def]) hw hb hf
  rw [hpre96, segEntries_length, ← hn_def] at hre0
  -- decode
  have hms96 : HEADER_SIZE + META_SIZE = 96 := rfl
  have hbase_eq : alignUp (96 + n * ENTRY_SIZE) FIRST_SEG_ALIGN = base := by
    rw [hbase_def]
    rfl
  have hdec : decode_container bs = .ok
      ⟨(segEntries img).map fun e =>
          Segment.mk SegType.loadable (e.offset - base) e.plainSize 0 0 0
            true false false,
        copySegments bs base (segEntries img)
          (pad (coverageEnd base (segEntries img)))⟩ := by
    rw [decode_container, if_pos h4]
    simp only [hhs, hms, hnr]
    rw [if_pos (by rw [hms96, hbs_len]; omega)]
    rw [hms96, hre0]
    simp only [hbase_eq]
  refine ⟨bs, _, henc, hdec, ?_, ?_, ?_⟩
  · simp [segEntries_length, hn_def]
  · rw [List.map_map, segEntries, ← hn_def, ← hbase_def, List.map_map]
    apply List.map_congr_left
    intro s hs
    simp only [Function.comp_apply]
    rw [Nat.add_sub_cancel_left]
  · intro s hs
    have hmem : (⟨base + s.fileOffset, s.fileSize, s.fileSize,
        SEG_FLAGS_BLOCKED⟩ : SegEntry) ∈ segEntries img := by
      rw [segEntries, ← hn_def, ← hbase_def]
      exact List.mem_map.mpr ⟨s, hs, rfl⟩
    have hfit : ∀ e ∈ segEntries img, e.offset - base + e.plainSize ≤
        (pad (coverageEnd base (segEntries img))).length := by
      intro e he
      rw [pad_length]
      exact le_coverageEnd base (segEntries img) e he
    have hpw2 : (segEntries img).Pairwise
        (fun e1 e2 => e1.offset - base + e1.plainSize ≤ e2.offset - base ∨
          e1.plainSize = 0 ∨ e2.plainSize = 0) := by
      rw [segEntries, ← hn_def, ← hbase_def, List.pairwise_map]
      refine hpw.imp ?_
      intro a b hab
      simp only [Nat.add_sub_cancel_left]
      exact hab.2
    have hcs := copySegments_slice bs base (segEntries img)
      (pad (coverageEnd base (segEntries img))) hfit hb hpw2 _ hmem
    simp only [Nat.add_sub_cancel_left] at hcs
    show slice (copySegments bs base (segEntries img)
      (pad (coverageEnd base (segEntries img)))) s.fileOffset s.fileSize =
      slice img.data s.fileOffset s.fileSize
    rw [hcs]
    have hsplit2 : bs = (encHeader total n ++ encAuthInfo d ++ T ++ P) ++
        img.data := by
      rw [hbs_def]
      simp only [List.append_assoc]
    have hpreF : (encHeader total n ++ encAuthInfo d ++ T ++ P).length =
        base := by
      simp only [List.length_append, encHeader_length, encAuthInfo_length,
        hT_len, hP_len]
      have hc3 : HEADER_SIZE = 32 := rfl
      have hc4 : META_SIZE = 64 := rfl
      omega
    rw [hsplit2]
    have hso := slice_append_offset
      (encHeader total n ++ encAuthInfo d ++ T ++ P)
      img.data s.fileOffset s.fileSize
    rw [hpreF] at hso
    exact hso

/-- Witness for C1 at the tiny well-formed image and the fake identity. -/
theorem C1_round_trip_witness :
    ∃ bs J, encode_container imgT idFake = .ok bs ∧
      decode_container bs = .ok J ∧
      J.segments.length = imgT.segments.length ∧
      J.segments.map (fun s => (s.fileOffset, s.fileSize)) =
        imgT.segments.map (fun s => (s.fileOffset, s.fileSize)) ∧
      ∀ s ∈ imgT.segments, slice J.data s.fileOffset s.fileSize =
        slice imgT.data s.fileOffset s.fileSize :=
  C1_round_trip imgT idFake (by decide) (by decide) (by decide)

theorem entry_reads (bs : List Nat) (e : SegEntry) (es : List SegEntry)
    (pre rest : List Nat)
    (hbs : bs = pre ++ (((e :: es).map encEntry).flatten ++ rest))
    (hw1 : e.offset < 2 ^ 64) (hw2 : e.compSize < 2 ^ 64)
    (hw3 : e.plainSize < 2 ^ 64) (hw4 : e.flags < 2 ^ 64) :
    readLE 8 bs pre.length = some e.offset ∧
    readLE 8 bs (pre.length + 8) = some e.compSize ∧
    readLE 8 bs (pre.length + 16) = some e.plainSize ∧
    readLE 8 bs (pre.length + 24) = some e.flags := by
  have hbs' : bs = pre ++ (writeLE 8 e.offset ++ (writeLE 8 e.compSize ++
      (writeLE 8 e.plainSize ++ (writeLE 8 e.flags ++
        ((es.map encEntry).flatten ++ rest))))) := by
    rw [hbs]
    simp only [List.map_cons, List.flatten_cons, encEntry, List.append_assoc]
  refine ⟨?_, ?_, ?_, ?_⟩
  · have h := readLE_at_append pre (writeLE 8 e.compSize ++
      (writeLE 8 e.plainSize ++ (writeLE 8 e.flags ++
        ((es.map encEntry).flatten ++ rest)))) 8 e.offset
    rw [← hbs'] at h
    rw [h, mod_256_8 _ hw1]
  · have h := readLE_at_append (pre ++ writeLE 8 e.offset)
      (writeLE 8 e.plainSize ++ (writeLE 8 e.flags ++
        ((es.map encEntry).flatten ++ rest))) 8 e.compSize
    have hlen : (pre ++ writeLE 8 e.offset).length = pre.length + 8 := by simp
    rw [hlen] at h
    have hlist : (pre ++ writeLE 8 e.offset) ++ (writeLE 8 e.compSize ++
        (writeLE 8 e.plainSize ++ (writeLE 8 e.flags ++
          ((es.map encEntry).flatten ++ rest)))) = bs := by
      rw [hbs']
      simp only [List.append_assoc]
    rw [hlist] at h
    rw [h, mod_256_8 _ hw2]
  · have h := readLE_at_append (pre ++ writeLE 8 e.offset ++ writeLE 8 e.compSize)
      (writeLE 8 e.flags ++ ((es.map encEntry).flatten ++ rest)) 8 e.plainSize
    have hlen : (pre ++ writeLE 8 e.offset ++ writeLE 8 e.compSize).length =
        pre.length + 16 := by simp
    rw [hlen] at h
    have hlist : (pre ++ writeLE 8 e.offset ++ writeLE 8 e.compSize) ++
        (writeLE 8 e.plainSize ++ (writeLE 8 e.flags ++
          ((es.map encEntry).flatten ++ rest))) = bs := by
      rw [hbs']
      simp only [List.append_assoc]
    rw [hlist] at h
    rw [h, mod_256_8 _ hw3]
  · have h := readLE_at_append
      (pre ++ writeLE 8 e.offset ++ writeLE 8 e.compSize ++ writeLE 8 e.plainSize)
      ((es.map encEntry).flatten ++ rest) 8 e.flags
    have hlen : (pre ++ writeLE 8 e.offset ++ writeLE 8 e.compSize ++
        writeLE 8 e.plainSize).length = pre.length + 24 := by simp
    rw [hlen] at h
    have hlist : (pre ++ writeLE 8 e.offset ++ writeLE 8 e.compSize ++
        writeLE 8 e.plainSize) ++ (writeLE 8 e.flags ++
          ((es.map encEntry).flatten ++ rest)) = bs := by
      rw [hbs']
      simp only [List.append_assoc]
    rw [hlist] at h
    rw [h, mod_256_8 _ hw4]

/-- Reading a table whose entries do not all fit inside the first `L`
bytes fails with a corrupt-table error. -/
theorem readEntries_trunc (bs : List Nat) :
    ∀ (es : List SegEntry) (pre rest : List Nat) (L : Nat),
    bs = pre ++ ((es.map encEntry).flatten ++ rest) →
    L ≤ bs.length →
    (∀ e ∈ es, e.offset < 2 ^ 64 ∧ e.compSize < 2 ^ 64 ∧ e.plainSize < 2 ^ 64 ∧
      e.flags < 2 ^ 64) →
    (∀ e ∈ es, e.flags % 2 = 0 ∧ e.flags / 2 % 2 = 0) →
    (∃ e ∈ es, L < e.offset + e.plainSize) →
    readEntries (bs.take L) pre.length es.length = .error .corruptTableError := by
  intro es
  induction es with
  | nil =>
    intro pre rest L hbs hL hw hflags hex
    obtain ⟨e, he, _⟩ := hex
    cases he
  | cons e es ih =>
    intro pre rest L hbs hL hw hflags hex
    have htlen : (bs.take L).length = L := by simp; omega
    obtain ⟨hw1, hw2, hw3, hw4⟩ := hw e (List.mem_cons_self _ _)
    obtain ⟨r1, r2, r3, r4⟩ := entry_reads bs e es pre rest hbs hw1 hw2 hw3 hw4
    show readEntries (bs.take L) pre.length (es.length + 1) =
      .error .corruptTableError
    rw [readEntries]
    by_cases hfit : pre.length + 32 ≤ L
    · have t1 : readLE 8 (bs.take L) pre.length = some e.offset := by
        rw [readLE_take 8 bs L pre.length (by omega) hL]
        exact r1
      have t2 : readLE 8 (bs.take L) (pre.length + 8) = some e.compSize := by
        rw [readLE_take 8 bs L (pre.length + 8) (by omega) hL]
        exact r2
      have t3 : readLE 8 (bs.take L) (pre.length + 16) = some e.plainSize := by
        rw [readLE_take 8 bs L (pre.length + 16) (by omega) hL]
        exact r3
      have t4 : readLE 8 (bs.take L) (pre.length + 24) = some e.flags := by
        rw [readLE_take 8 bs L (pre.length + 24) (by omega) hL]
        exact r4
      simp only [t1, t2, t3, t4]
      by_cases hcheck : e.offset + e.plainSize ≤ (bs.take L).length
      · rw [if_pos hcheck]
        have hfl := hflags e (List.mem_cons_self _ _)
        rw [if_neg (by omega)]
        obtain ⟨e0, he0, hLe0⟩ := hex
        have he0' : e0 ∈ es := by
          rcases List.mem_cons.mp he0 with h | h
          · exfalso
            rw [htlen] at hcheck
            rw [h] at hLe0
            omega
          · exact h
        have hrec := ih (pre ++ encEntry e) rest L
          (by
            rw [hbs]
            simp only [List.map_cons, List.flatten_cons, List.append_assoc])
          hL
          (fun e' he' => hw e' (List.mem_cons_of_mem _ he'))
          (fun e' he' => hflags e' (List.mem_cons_of_mem _ he'))
          ⟨e0, he0', hLe0⟩
        have hlenE : (pre ++ encEntry e).length = pre.length + 32 := by
          simp [encEntry_length, ENTRY_SIZE]
        rw [hlenE] at hrec
        have hE : pre.length + ENTRY_SIZE = pre.length + 32 := rfl
        rw [hE, hrec]
      · rw [if_neg hcheck]
    · by_cases h8 : pre.length + 8 ≤ L
      · have t1 : readLE 8 (bs.take L) pre.length = some e.offset := by
          rw [readLE_take 8 bs L pre.length (by omega) hL]
          exact r1
        by_cases h16 : pre.length + 16 ≤ L
        · have t2 : readLE 8 (bs.take L) (pre.length + 8) = some e.compSize := by
            rw [readLE_take 8 bs L (pre.length + 8) (by omega) hL]
            exact r2
          by_cases h24 : pre.length + 24 ≤ L
          · have t3 : readLE 8 (bs.take L) (pre.length + 16) =
                some e.plainSize := by
              rw [readLE_take 8 bs L (pre.length + 16) (by omega) hL]
              exact r3
            have t4 : readLE 8 (bs.take L) (pre.length + 24) = none :=
              readLE_none 8 _ _ (by rw [htlen]; omega)
            simp only [t1, t2, t3, t4]
          · have t3 : readLE 8 (bs.take L) (pre.length + 16) = none :=
              readLE_none 8 _ _ (by rw [htlen]; omega)
            simp only [t1, t2, t3]
        · have t2 : readLE 8 (bs.take L) (pre.length + 8) = none :=
            readLE_none 8 _ _ (by rw [htlen]; omega)
          simp only [t1, t2]
      · have t1 : readLE 8 (bs.take L) pre.length = none :=
          readLE_none 8 _ _ (by rw [htlen]; omega)
        simp only [t1]

theorem exists_gt_of_lt_foldr_max (l : List SegEntry) (L : Nat)
    (h : L < l.foldr (fun e m => max (e.offset + e.plainSize) m) 0) :
    ∃ e ∈ l, L < e.offset + e.plainSize := by
  induction l with
  | nil => simp at h
  | cons e es ih =>
    rw [List.foldr_cons] at h
    rcases Nat.lt_or_ge L (e.offset + e.plainSize) with hlt | hge
    · exact ⟨e, List.mem_cons_self _ _, hlt⟩
    · have : L < es.foldr (fun e m => max (e.offset + e.plainSize) m) 0 := by
        omega
      obtain ⟨e', he', hlt'⟩ := ih this
      exact ⟨e', List.mem_cons_of_mem _ he', hlt'⟩

theorem foldr_max_le (l : List SegEntry) (B : Nat)
    (h : ∀ e ∈ l, e.offset + e.plainSize ≤ B) :
    l.foldr (fun e m => max (e.offset + e.plainSize) m) 0 ≤ B := by
  induction l with
  | nil => simp
  | cons e es ih =>
    rw [List.foldr_cons]
    have h1 := h e (List.mem_cons_self _ _)
    have h2 := ih fun e' he' => h e' (List.mem_cons_of_mem _ he')
    omega

set_option maxRecDepth 100000 in
/-- Counterexample to C7 as stated: the 130-byte container of `imgT`
declares total size 130 in its header, yet after truncating it to 129
bytes (fewer than the declared total) decoding still succeeds, because
the decoder checks only `header_size + metadata_size` and the entry
ranges against the buffer length, never the declared total size; the
dropped byte is buffer slack no segment-info entry covers. -/
theorem C7_counterexample :
    encode_container imgT idFake = .ok bsT ∧
    readLE 8 bsT 20 = some 130 ∧
    bsT.length = 130 ∧
    (decode_container (bsT.take 129)).isOk = true := by
  refine ⟨rfl, by decide, by decide, by decide⟩

/-- C7 (amended): decoding detects every truncation that cuts into the
byte range some segment-info entry covers: for any encoded container
truncated below `entriesEnd` (the furthest entry end, a value at most
the header-declared total size), decoding fails with `FormatError` or
`CorruptTableError`.  Decoding itself is a total function whose every
buffer access is bounds-checked, so it never reads out of bounds;
truncation inside the trailing slack `[entriesEnd, total)` is not
detected (see the counterexample). -/
theorem C7_truncation_detected (img : Image) (d : Identity) (bs : List Nat)
    (L : Nat) (hwf : img.WF) (hne : img.segments ≠ [])
    (hpt : d.ptype ∈ recognizedPtypes)
    (henc : encode_container img d = .ok bs)
    (hL : L < entriesEnd img) :
    (decode_container (bs.take L) = .error .formatError ∨
      decode_container (bs.take L) = .error .corruptTableError) ∧
    entriesEnd img ≤ baseOffsetFor img.segments.length + img.data.length := by
  obtain ⟨hpw, hbound, hdlen, hslen⟩ := hwf
  have hbs : bs = encHeader (baseOffsetFor img.segments.length + img.data.length)
      img.segments.length ++
      (encAuthInfo d ++ (((segEntries img).map encEntry).flatten ++
        (pad (baseOffsetFor img.segments.length -
          (segTableOff + img.segments.length * ENTRY_SIZE)) ++ img.data))) := by
    have h2 := encode_ok img d hne hpt
    rw [henc] at h2
    injection h2
  set n := img.segments.length with hn_def
  set base := baseOffsetFor n with hbase_def
  set total := base + img.data.length with htotal_def
  set T := ((segEntries img).map encEntry).flatten with hT_def
  set P := pad (base - (segTableOff + n * ENTRY_SIZE)) with hP_def
  clear_value n base total T P
  have hc1 : segTableOff = 96 := rfl
  have hc2 : ENTRY_SIZE = 32 := rfl
  have hbase_ge : 96 + n * 32 ≤ base := by
    rw [hbase_def, baseOffsetFor, hc1, hc2]
    exact le_alignUp _ _
  have hT_len : T.length = n * 32 := by
    rw [hT_def, entryBytes_length, segEntries_length, hn_def, hc2]
  have hP_len : P.length = base - (96 + n * 32) := by
    rw [hP_def, pad_length, hc1, hc2]
  have hbs_len : bs.length = base + img.data.length := by
    rw [hbs]
    simp only [List.length_append, encHeader_length, encAuthInfo_length,
      hT_len, hP_len]
    have hc3 : HEADER_SIZE = 32 := rfl
    have hc4 : META_SIZE = 64 := rfl
    omega
  have hentry_shape : ∀ e ∈ segEntries img, ∃ s ∈ img.segments,
      e = ⟨base + s.fileOffset, s.fileSize, s.fileSize, SEG_FLAGS_BLOCKED⟩ := by
    intro e he
    rw [segEntries, ← hn_def, ← hbase_def] at he
    obtain ⟨s, hs, hse⟩ := List.mem_map.mp he
    exact ⟨s, hs, hse.symm⟩
  have hend_le : entriesEnd img ≤ base + img.data.length := by
    rw [entriesEnd]
    apply foldr_max_le
    intro e he
    obtain ⟨s, hs, rfl⟩ := hentry_shape e he
    have hof := hbound s hs
    show base + s.fileOffset + s.fileSize ≤ base + img.data.length
    omega
  refine ⟨?_, by rw [htotal_def]; exact hend_le⟩
  have hLbs : L ≤ bs.length := by
    rw [hbs_len]
    omega
  have htlen : (bs.take L).length = L := by simp; omega
  by_cases hm : (bs.take L).take 4 = CF_MAGIC
  swap
  · left
    rw [decode_container, if_neg hm]
  rw [decode_container, if_pos hm]
  by_cases hL32 : 32 ≤ L
  swap
  · left
    have r28 : readLE 4 (bs.take L) 28 = none :=
      readLE_none 4 _ _ (by rw [htlen]; omega)
    cases r12 : readLE 4 (bs.take L) 12 with
    | none => simp only [r12]
    | some v12 =>
      cases r16 : readLE 4 (bs.take L) 16 with
      | none => simp only [r12, r16]
      | some v16 => simp only [r12, r16, r28]
  have hpow : 96 + 2 ^ 32 * 32 + 64 + 2 ^ 32 + 2 ^ 32 ≤ 2 ^ 64 := by norm_num
  have hbase_le : base ≤ 96 + n * 32 + 64 := by
    rw [hbase_def, baseOffsetFor, hc1, hc2]
    have h5 : FIRST_SEG_ALIGN = 64 := rfl
    rw [h5]
    exact alignUp_le_add _ _
  have t12 : readLE 4 (bs.take L) 12 = some HEADER_SIZE := by
    rw [readLE_take 4 bs L 12 (by omega) hLbs, hbs]
    exact enc_read_hs total n _
  have t16 : readLE 4 (bs.take L) 16 = some META_SIZE := by
    rw [readLE_take 4 bs L 16 (by omega) hLbs, hbs]
    exact enc_read_ms total n _
  have t28 : readLE 4 (bs.take L) 28 = some n := by
    rw [readLE_take 4 bs L 28 (by omega) hLbs, hbs]
    exact enc_read_n total n _ hslen
  simp only [t12, t16, t28]
  have hms96 : HEADER_SIZE + META_SIZE = 96 := rfl
  by_cases hL96 : 96 ≤ L
  swap
  · left
    rw [if_neg (by rw [hms96, htlen]; omega)]
  rw [if_pos (by rw [hms96, htlen]; omega)]
  right
  have hw : ∀ e ∈ segEntries img, e.offset < 2 ^ 64 ∧ e.compSize < 2 ^ 64 ∧
      e.plainSize < 2 ^ 64 ∧ e.flags < 2 ^ 64 := by
    intro e he
    obtain ⟨s, hs, rfl⟩ := hentry_shape e he
    have hof := hbound s hs
    refine ⟨?_, ?_, ?_, ?_⟩
    · show base + s.fileOffset < 2 ^ 64
      omega
    · show s.fileSize < 2 ^ 64
      omega
    · show s.fileSize < 2 ^ 64
      omega
    · show SEG_FLAGS_BLOCKED < 2 ^ 64
      have h4 : SEG_FLAGS_BLOCKED = 4 := rfl
      omega
  have hf : ∀ e ∈ segEntries img, e.flags % 2 = 0 ∧ e.flags / 2 % 2 = 0 := by
    intro e he
    obtain ⟨s, hs, rfl⟩ := hentry_shape e he
    constructor
    · show SEG_FLAGS_BLOCKED % 2 = 0
      decide
    · show SEG_FLAGS_BLOCKED / 2 % 2 = 0
      decide
  have hex : ∃ e ∈ segEntries img, L < e.offset + e.plainSize := by
    rw [entriesEnd] at hL
    exact exists_gt_of_lt_foldr_max (segEntries img) L hL
  have hshape : bs = (encHeader total n ++ encAuthInfo d) ++
      (((segEntries img).map encEntry).flatten ++ (P ++ img.data)) := by
    rw [hbs, hT_def]
    simp only [List.append_assoc]
  have hpre96 : (encHeader total n ++ encAuthInfo d).length = 96 := by
    simp only [List.length_append, encHeader_length, encAuthInfo_length]
    have hc3 : HEADER_SIZE = 32 := rfl
    have hc4 : META_SIZE = 64 := rfl
    omega
  have htr := readEntries_trunc bs (segEntries img)
    (encHeader total n ++ encAuthInfo d) (P ++ img.data) L hshape hLbs hw hf hex
  rw [hpre96, segEntries_length, ← hn_def] at htr
  rw [hms96, htr]

/-- Witness for C7 (amended): truncating the 130-byte container of
`imgT` to 100 bytes (inside the table/segment coverage, `entriesEnd =
129`) is detected. -/
theorem C7_truncation_detected_witness :
    (decode_container (bsT.take 100) = .error .formatError ∨
      decode_container (bsT.take 100) = .error .corruptTableError) ∧
    entriesEnd imgT ≤ baseOffsetFor imgT.segments.length + imgT.data.length :=
  C7_truncation_detected imgT idFake bsT 100 (by decide) (by decide)
    (by decide) rfl (by decide)

end Backpork
